import Mathlib

/-!
Verification of the document-template-customizer core against its
natural-language specification.

JavaScript strings are embedded as `List Char` (`Str`); each regular
expression of the source is hand-compiled to a decidable predicate on `Str`;
`JSON.parse` is embedded as a fuel-indexed total parser covering the JSON
grammar (JS whitespace and `\s` are modelled by their ASCII subset, which is
the only part exercised by the repository's documents and tests).
-/

namespace DTC

/-- JavaScript strings, embedded as lists of unicode scalars. -/
abbrev Str := List Char

/-- ASCII subset of the JS `\s` class / `String.prototype.trim` whitespace. -/
def jsWs (c : Char) : Bool :=
  c == ' ' || c == '\t' || c == '\n' || c == '\r' || c == '\x0b' || c == '\x0c'

/-- Embedding of `String.prototype.trimStart`. -/
def trimStartL (s : Str) : Str := s.dropWhile jsWs

/-- Embedding of `String.prototype.trimEnd`. -/
def trimEndL (s : Str) : Str := (s.reverse.dropWhile jsWs).reverse

/-- Embedding of `String.prototype.trim`. -/
def trimL (s : Str) : Str := trimStartL (trimEndL s)

/-- Embedding of `rawContent.split(/\r?\n/)`. -/
def splitLines : Str → List Str
  | [] => [[]]
  | '\r' :: '\n' :: rest => [] :: splitLines rest
  | '\n' :: rest => [] :: splitLines rest
  | c :: rest =>
    match splitLines rest with
    | [] => [[c]]
    | l :: ls => (c :: l) :: ls

/-- Boolean test that `pat` is a leading segment of `s`. -/
def lstartsWith : Str → Str → Bool
  | [], _ => true
  | _ :: _, [] => false
  | p :: ps, c :: cs => p == c && lstartsWith ps cs

/-- Boolean test that `pat` is a trailing segment of `s`
(embedding of `String.prototype.endsWith`). -/
def lendsWith (pat s : Str) : Bool := lstartsWith pat.reverse s.reverse

/-- Boolean test that `pat` occurs contiguously inside `s`. -/
def containsSeg (pat : Str) : Str → Bool
  | [] => lstartsWith pat []
  | c :: rest => lstartsWith pat (c :: rest) || containsSeg pat rest

/-- Embedding of `label.split("::")` (JS `String.prototype.split` with a
two-character literal separator, scanning left to right). -/
def splitOnColons : Str → List Str
  | [] => [[]]
  | ':' :: ':' :: rest => [] :: splitOnColons rest
  | c :: rest =>
    match splitOnColons rest with
    | [] => [[c]]
    | l :: ls => (c :: l) :: ls

/-- Embedding of `String.prototype.toLowerCase` (pointwise). -/
def lowerL (s : Str) : Str := s.map Char.toLower

/-! ## Hand-compiled regular expressions

Each predicate below is the compilation of one regex literal of the source,
with JS backtracking semantics resolved into an explicit condition
(`.` never matches `'\n'`; `\s` may). -/

/-- Compilation of the tail `\s+.+$` (at least one whitespace, then a
non-empty `'\n'`-free remainder, greedy with backtracking). -/
def headingRestOk (rest : Str) : Bool :=
  match rest with
  | [] => false
  | c :: _ =>
    jsWs c &&
    (let m := (rest.takeWhile jsWs).length
     let k := min m (rest.length - 1)
     decide (1 ≤ k) && !((rest.drop k).contains '\n'))

/-- Compilation of `/^\s*(?:#{1,6}|={1,6})\s+.+$/` (the heading test of
`filterPartContent`, supporting both marker styles). -/
def headingTestMd (s : Str) : Bool :=
  let r := s.dropWhile jsWs
  match r with
  | [] => false
  | c :: _ =>
    (c == '#' || c == '=') &&
    (let k := (r.takeWhile (fun d => d == c)).length
     let rest := r.dropWhile (fun d => d == c)
     decide (k ≤ 6) && headingRestOk rest)

/-- Compilation of `/^\s*(#{1,6})\s+(.*)$/` (the parser's heading regex),
returning the level and the captured raw title. -/
def parseHeadingMd (s : Str) : Option (Nat × Str) :=
  let r := s.dropWhile jsWs
  match r with
  | [] => none
  | c :: _ =>
    if c == '#' then
      let k := (r.takeWhile (fun d => d == '#')).length
      let rest := r.dropWhile (fun d => d == '#')
      if k ≤ 6 then
        match rest with
        | [] => none
        | d :: _ =>
          if jsWs d then
            let t := rest.dropWhile jsWs
            if t.contains '\n' then none else some (k, t)
          else none
      else none
    else none

/-- Compilation of `/^\s*:[^:]+:.*$/` (document attribute lines). -/
def attrTest (s : Str) : Bool :=
  match s.dropWhile jsWs with
  | ':' :: rest =>
    match rest.findIdx? (fun c => c == ':') with
    | none => false
    | some i => decide (1 ≤ i) && !((rest.drop (i + 1)).contains '\n')
  | _ => false

/-- Valid closing-brace position for `\{.*\}\s*$`: the text before `j` is
`'\n'`-free and everything after position `j` is whitespace. -/
def braceCloseAt (body : Str) (j : Nat) : Bool :=
  body.getD j ' ' == '}' && !((body.take j).contains '\n') && (body.drop (j + 1)).all jsWs

/-- Compilation of `/^\s*\/\/\s*🏷\s*\{.*\}\s*$/` (metadata-marker lines as
recognised by `filterPartContent`). -/
def metaTest (s : Str) : Bool :=
  match s.dropWhile jsWs with
  | '/' :: '/' :: r1 =>
    match r1.dropWhile jsWs with
    | c :: r3 =>
      c == '🏷' &&
      (match r3.dropWhile jsWs with
       | '{' :: body => (List.range body.length).any (braceCloseAt body)
       | _ => false)
    | [] => false
  | _ => false

/-- Greedy (largest) valid closing-brace position for a capture `(\{.*\})`
followed by a suffix condition on what comes after the brace. -/
def lastCloseIdx (valid : Str → Nat → Bool) (body : Str) : Option Nat :=
  ((List.range body.length).filter (valid body)).getLast?

/-- Suffix condition `\s*$` after the captured group. -/
def sufWsOnly (body : Str) (j : Nat) : Bool :=
  body.getD j ' ' == '}' && !((body.take j).contains '\n') && (body.drop (j + 1)).all jsWs

/-- Suffix condition `\s*-->\s*$` after the captured group. -/
def sufArrow (body : Str) (j : Nat) : Bool :=
  body.getD j ' ' == '}' && !((body.take j).contains '\n') &&
  (let suf := (body.drop (j + 1)).dropWhile jsWs
   lstartsWith ("-->".data) suf && ((suf.drop 3).all jsWs))

/-- Compilation of the parser's metadata regex
`/^(?:\s*\/\/\s*🏷\s*(\{.*\})\s*$|\s*<!--\s*🏷\s*(\{.*\})\s*-->\s*$)/`,
returning the captured `\x7b...\x7d` JSON text. -/
def metaCaptureP (s : Str) : Option Str :=
  match s.dropWhile jsWs with
  | '/' :: '/' :: r1 =>
    (match r1.dropWhile jsWs with
     | '🏷' :: r3 =>
       (match r3.dropWhile jsWs with
        | '{' :: body =>
          (lastCloseIdx sufWsOnly body).map (fun j => '{' :: (body.take j ++ [ '}' ]))
        | _ => none)
     | _ => none)
  | '<' :: '!' :: '-' :: '-' :: r1 =>
    (match r1.dropWhile jsWs with
     | '🏷' :: r3 =>
       (match r3.dropWhile jsWs with
        | '{' :: body =>
          (lastCloseIdx sufArrow body).map (fun j => '{' :: (body.take j ++ [ '}' ]))
        | _ => none)
     | _ => none)
  | _ => none

/-- Compilation of `/^\s*\[#(?:[^\]]+)\]\s*$/` (anchor block-id lines). -/
def anchorTest (s : Str) : Bool :=
  match s.dropWhile jsWs with
  | '[' :: '#' :: rest =>
    match rest.findIdx? (fun c => c == ']') with
    | none => false
    | some i => decide (1 ≤ i) && (rest.drop (i + 1)).all jsWs
  | _ => false

/-- Compilation of `/^\s*TIP:\s+See also\b/`. -/
def seeAlsoTest (s : Str) : Bool :=
  let r := s.dropWhile jsWs
  if lstartsWith ("TIP:".data) r then
    match r.drop 4 with
    | [] => false
    | c :: _ =>
      jsWs c &&
      (let rest2 := (r.drop 4).dropWhile jsWs
       lstartsWith ("See also".data) rest2 &&
       (match rest2.drop 8 with
        | [] => true
        | d :: _ => !(d.isAlphanum || d == '_')))
  else false

/-! ## JSON (embedding of the `JSON.parse` runtime builtin)

Only syntactic validity and the shapes `string | array | object | bool`
matter downstream; numbers are recognised but their value is not retained.
Lone surrogates from `\u` escapes (representable in JS strings but not as
unicode scalars) are replaced by U+FFFD. -/

inductive Json where
  | jnull
  | jbool (b : Bool)
  | jnum
  | jstr (s : Str)
  | jarr (xs : List Json)
  | jobj (fields : List (Str × Json))

/-- JSON insignificant whitespace. -/
def skipJWs (s : Str) : Str :=
  s.dropWhile (fun c => c == ' ' || c == '\t' || c == '\n' || c == '\r')

/-- Hexadecimal digit value. -/
def hexVal (c : Char) : Option Nat :=
  if c.isDigit then some (c.toNat - 48)
  else if 'a' ≤ c && c ≤ 'f' then some (c.toNat - 87)
  else if 'A' ≤ c && c ≤ 'F' then some (c.toNat - 55)
  else none

/-- Four hex digits. -/
def pHex4 : Str → Option (Nat × Str)
  | a :: b :: c :: d :: rest =>
    match hexVal a, hexVal b, hexVal c, hexVal d with
    | some va, some vb, some vc, some vd => some (va * 4096 + vb * 256 + vc * 16 + vd, rest)
    | _, _, _, _ => none
  | _ => none

/-- Single-character JSON escapes. -/
def escChar : Char → Option Char
  | '"' => some '"'
  | '\\' => some '\\'
  | '/' => some '/'
  | 'b' => some '\x08'
  | 'f' => some '\x0c'
  | 'n' => some '\n'
  | 'r' => some '\r'
  | 't' => some '\t'
  | _ => none

/-- Prepend a char to the first component. -/
def consFst (c : Char) (p : Str × Str) : Str × Str := (c :: p.1, p.2)

/-- JSON string body (after the opening quote): content and rest after the
closing quote. -/
def jstrBody : Nat → Str → Option (Str × Str)
  | 0, _ => none
  | _ + 1, [] => none
  | _ + 1, '"' :: rest => some ([], rest)
  | fuel + 1, '\\' :: rest =>
    (match rest with
     | [] => none
     | e :: rest2 =>
       if e == 'u' then
         match pHex4 rest2 with
         | none => none
         | some (h, rest3) =>
           if 0xD800 ≤ h && h ≤ 0xDBFF then
             match rest3 with
             | '\\' :: 'u' :: rest4 =>
               (match pHex4 rest4 with
                | some (l, rest5) =>
                  if 0xDC00 ≤ l && l ≤ 0xDFFF then
                    (jstrBody fuel rest5).map
                      (consFst (Char.ofNat (0x10000 + (h - 0xD800) * 0x400 + (l - 0xDC00))))
                  else (jstrBody fuel rest3).map (consFst '�')
                | none => (jstrBody fuel rest3).map (consFst '�'))
             | _ => (jstrBody fuel rest3).map (consFst '�')
           else if 0xDC00 ≤ h && h ≤ 0xDFFF then (jstrBody fuel rest3).map (consFst '�')
           else (jstrBody fuel rest3).map (consFst (Char.ofNat h))
       else
         match escChar e with
         | some c => (jstrBody fuel rest2).map (consFst c)
         | none => none)
  | fuel + 1, c :: rest =>
    if c.toNat < 0x20 then none else (jstrBody fuel rest).map (consFst c)

/-- JSON fraction part (optional). -/
def pFrac : Str → Option Str
  | '.' :: r2 =>
    match r2 with
    | d :: _ => if d.isDigit then some (r2.dropWhile Char.isDigit) else none
    | [] => none
  | r => some r

/-- JSON exponent part (optional). -/
def pExp (s : Str) : Option Str :=
  match s with
  | e :: r =>
    if e == 'e' || e == 'E' then
      let r2 := match r with
        | '+' :: r' => r'
        | '-' :: r' => r'
        | r' => r'
      match r2 with
      | d :: _ => if d.isDigit then some (r2.dropWhile Char.isDigit) else none
      | [] => none
    else some s
  | [] => some s

/-- JSON number: returns the rest after a valid number literal. -/
def pNumRest (s : Str) : Option Str :=
  let s1 := match s with
    | '-' :: r => r
    | r => r
  let intRest : Option Str :=
    match s1 with
    | '0' :: r => some r
    | c :: r => if c.isDigit then some (r.dropWhile Char.isDigit) else none
    | [] => none
  match intRest with
  | none => none
  | some r =>
    match pFrac r with
    | none => none
    | some r2 => pExp r2

mutual

/-- JSON value (fuel-indexed). -/
def pVal : Nat → Str → Option (Json × Str)
  | 0, _ => none
  | fuel + 1, s =>
    match skipJWs s with
    | '{' :: rest => pObjBody fuel rest
    | '[' :: rest => pArrBody fuel rest
    | '"' :: rest => (jstrBody (rest.length + 1) rest).map (fun p => (Json.jstr p.1, p.2))
    | 't' :: rest =>
      if lstartsWith ("rue".data) rest then some (Json.jbool true, rest.drop 3) else none
    | 'f' :: rest =>
      if lstartsWith ("alse".data) rest then some (Json.jbool false, rest.drop 4) else none
    | 'n' :: rest =>
      if lstartsWith ("ull".data) rest then some (Json.jnull, rest.drop 3) else none
    | s1 => (pNumRest s1).map (fun r => (Json.jnum, r))

/-- JSON array body, after the opening bracket. -/
def pArrBody : Nat → Str → Option (Json × Str)
  | 0, _ => none
  | fuel + 1, s =>
    match skipJWs s with
    | ']' :: r => some (Json.jarr [], r)
    | s1 => pArrLoop fuel s1 []

/-- Array elements separated by commas, closed by a bracket. -/
def pArrLoop : Nat → Str → List Json → Option (Json × Str)
  | 0, _, _ => none
  | fuel + 1, s, acc =>
    match pVal fuel s with
    | none => none
    | some (v, r) =>
      match skipJWs r with
      | ',' :: r2 => pArrLoop fuel r2 (acc ++ [v])
      | ']' :: r2 => some (Json.jarr (acc ++ [v]), r2)
      | _ => none

/-- JSON object body, after the opening brace. -/
def pObjBody : Nat → Str → Option (Json × Str)
  | 0, _ => none
  | fuel + 1, s =>
    match skipJWs s with
    | '}' :: r => some (Json.jobj [], r)
    | s1 => pObjLoop fuel s1 []

/-- Object members separated by commas, closed by a brace. -/
def pObjLoop : Nat → Str → List (Str × Json) → Option (Json × Str)
  | 0, _, _ => none
  | fuel + 1, s, acc =>
    match skipJWs s with
    | '"' :: r =>
      (match jstrBody (r.length + 1) r with
       | none => none
       | some (key, r1) =>
         match skipJWs r1 with
         | ':' :: r2 =>
           (match pVal fuel r2 with
            | none => none
            | some (v, r3) =>
              match skipJWs r3 with
              | ',' :: r4 => pObjLoop fuel r4 (acc ++ [(key, v)])
              | '}' :: r4 => some (Json.jobj (acc ++ [(key, v)]), r4)
              | _ => none)
         | _ => none)
    | _ => none

end

/-- Embedding of `JSON.parse` (returns `none` where JS would throw). -/
def jsonParse (s : Str) : Option Json :=
  match pVal (s.length + 1) s with
  | some (v, rest) => if skipJWs rest = [] then some v else none
  | none => none

/-- Property access on a parsed JSON object: JS keeps the last duplicate
key. -/
def jlookup (fields : List (Str × Json)) (key : Str) : Option Json :=
  ((fields.filter (fun p => p.1 == key)).getLast?).map (fun p => p.2)

/-- One arm of `findFirstLevelOneHeadingIndex`: marker char `c` at the start
of the start-trimmed line, followed by whitespace (`/^#\s+/`, `/^=\s+/`). -/
def looseH1Arm (c : Char) (t : Str) : Bool :=
  match t with
  | a :: b :: _ => a == c && jsWs b
  | _ => false

/-- Per-line test of `findFirstLevelOneHeadingIndex` (`filterPartContent`):
a `#`- or `=`-style level-1 marker followed by whitespace, title not
required. -/
def looseH1 (line : Str) : Bool :=
  let t := trimStartL line
  (lstartsWith ("#".data) t && !lstartsWith ("##".data) t && looseH1Arm '#' t) ||
  (lstartsWith ("=".data) t && !lstartsWith ("==".data) t && looseH1Arm '=' t)

/-- Embedding of `findFirstLevelOneHeadingIndex` (`-1` becomes `none`). -/
def findFirstLevelOneHeadingIndex (lines : List Str) : Option Nat :=
  lines.findIdx? looseH1

/-! ## Data model and section parser (`parseAsciiDocSections`, part of the
parser module with line locations) -/

/-- `PartSectionMetadata`: the validated fields extracted from the metadata
JSON (`labels = []` and `linkTo = []` model absent fields, matching every
downstream `?? []` read; the `raw` blob is never read downstream and is not
retained). -/
structure Meta where
  id : Option Str := none
  labels : List Str := []
  linkTo : List Str := []
deriving DecidableEq, Repr

/-- `SectionWithLocation` tree node. -/
inductive Sec where
  | mk (level : Nat) (title : Str) (metadata : Option Meta)
       (startLine endLine : Nat) (children : List Sec)

def Sec.level : Sec → Nat
  | .mk l _ _ _ _ _ => l

def Sec.title : Sec → Str
  | .mk _ t _ _ _ _ => t

def Sec.metadata : Sec → Option Meta
  | .mk _ _ m _ _ _ => m

def Sec.startLine : Sec → Nat
  | .mk _ _ _ s _ _ => s

def Sec.endLine : Sec → Nat
  | .mk _ _ _ _ e _ => e

def Sec.children : Sec → List Sec
  | .mk _ _ _ _ _ cs => cs

/-- Labels of a node as read downstream (`section.metadata?.labels ?? []`). -/
def Sec.labs (s : Sec) : List Str :=
  (s.metadata.map Meta.labels).getD []

/-- Embedding of the parser's `parseMetadata` (malformed JSON degrades to
`none`; a parsed array passes the `typeof === "object"` check with no
recognised fields). -/
def parseMetadataP (value : Str) : Option Meta :=
  match jsonParse value with
  | none => none
  | some Json.jnull => none
  | some (Json.jbool _) => none
  | some Json.jnum => none
  | some (Json.jstr _) => none
  | some (Json.jarr _) => some {}
  | some (Json.jobj fields) =>
    let id : Option Str :=
      match jlookup fields ("id".data) with
      | some (Json.jstr s) => some s
      | _ => none
    let labels : List Str :=
      match jlookup fields ("labels".data) with
      | some (Json.jarr xs) =>
        xs.filterMap (fun v => match v with | Json.jstr s => some s | _ => none)
      | _ => []
    let rawLink : Option Json :=
      match jlookup fields ("link_to".data) with
      | some Json.jnull => jlookup fields ("links".data)
      | none => jlookup fields ("links".data)
      | some v => some v
    let linkTo : List Str :=
      match rawLink with
      | some (Json.jstr s) => [s]
      | some (Json.jarr xs) =>
        xs.filterMap (fun v => match v with | Json.jstr s => some s | _ => none)
      | _ => []
    some { id := id, labels := labels, linkTo := linkTo }

/-- An open (still on the stack) section under construction; `done` holds its
already-closed children in document order. -/
structure Frame where
  level : Nat
  title : Str
  metadata : Option Meta
  startLine : Nat
  done : List Sec
deriving Inhabited

/-- Parser state: closed roots, the open-section stack (head = top), and the
pending-metadata register with its line index. -/
structure PState where
  roots : List Sec
  stack : List Frame
  pm : Option Meta
  pmLine : Option Nat

/-- Close an open section with its final `endLine`. -/
def closeFrame (f : Frame) (e : Nat) : Sec :=
  .mk f.level f.title f.metadata f.startLine e f.done

/-- Fuel-indexed worker for `popGE`; the fuel equals the stack length at
every call, so the zero case is never the deciding branch. -/
def popGEF (lvl ns : Nat) : Nat → List Frame → List Sec → List Frame × List Sec
  | 0, stack, roots => (stack, roots)
  | fuel + 1, stack, roots =>
    match stack with
    | [] => ([], roots)
    | f :: rest =>
      if lvl ≤ f.level then
        let s := closeFrame f (max f.startLine (ns - 1))
        match rest with
        | [] => ([], roots ++ [s])
        | g :: grest => popGEF lvl ns fuel ({ g with done := g.done ++ [s] } :: grest) roots
      else (f :: rest, roots)

/-- Pop and close every open section with `level ≥ lvl`, recording
`endLine = max(startLine, ns - 1)` (the JS `-1` case coincides with `Nat`
truncation since `startLine ≥ 0`); a closed section attaches to the next
frame below, or to the roots when the stack empties. -/
def popGE (lvl ns : Nat) (stack : List Frame) (roots : List Sec) :
    List Frame × List Sec :=
  popGEF lvl ns stack.length stack roots

/-- Fuel-indexed worker for `closeAll`. -/
def closeAllF (lastL : Nat) : Nat → List Frame → List Sec → List Sec
  | 0, _, roots => roots
  | fuel + 1, stack, roots =>
    match stack with
    | [] => roots
    | f :: rest =>
      let s := closeFrame f lastL
      match rest with
      | [] => roots ++ [s]
      | g :: grest => closeAllF lastL fuel ({ g with done := g.done ++ [s] } :: grest) roots

/-- End-of-input pop: every still-open section closes with
`endLine = lastLineIndex` (the initialised `lines.length - 1`, which the two
final adjustments of the source leave unchanged). -/
def closeAll (lastL : Nat) (stack : List Frame) (roots : List Sec) : List Sec :=
  closeAllF lastL stack.length stack roots

/-- One iteration of the parser's line loop. -/
def stepLine (index : Nat) (raw : Str) (st : PState) : PState :=
  let line := trimEndL raw
  let trimmed := trimL line
  match metaCaptureP trimmed with
  | some json =>
    let pm := match parseMetadataP json with
      | some m => some m
      | none => st.pm
    { st with pm := pm, pmLine := some index }
  | none =>
    match parseHeadingMd line with
    | none => if trimmed = [] then st else { st with pm := none, pmLine := none }
    | some (level, titleRaw) =>
      let title := trimL titleRaw
      if title = [] then st
      else
        let ns := st.pmLine.getD index
        let (stack1, roots1) := popGE level ns st.stack st.roots
        { roots := roots1,
          stack := ⟨level, title, st.pm, ns, []⟩ :: stack1,
          pm := none, pmLine := none }

/-- Fold of `stepLine` over the indexed lines. -/
def runLines : Nat → List Str → PState → PState
  | _, [], st => st
  | i, l :: rest, st => runLines (i + 1) rest (stepLine i l st)

/-- Embedding of `parseAsciiDocSections` (parser module, with locations). -/
def parseAsciiDocSectionsP (content : Str) : List Sec :=
  let lines := splitLines content
  let fin := runLines 0 lines ⟨[], [], none, none⟩
  closeAll (lines.length - 1) fin.stack fin.roots

/-! ## Label matching

`matchesAllLabels` is the current filter module's matcher (exact membership,
AND over the section's own labels); `matchesAllLabelsW` is the
wildcard-capable variant of `src/filterPartContent.ts` (same AND backbone,
per-label satisfaction extended by namespace wildcards). -/

/-- Per-label satisfaction of the current filter module: trimmed exact
membership in the selection set. -/
def labelSat (cands : List Str) (label : Str) : Bool :=
  let t := trimL label
  !t.isEmpty && cands.contains t

/-- AND-semantics matcher of the current filter module. -/
def matchesAllLabels (labels : List Str) (cands : List Str) : Bool :=
  !labels.isEmpty && labels.all (labelSat cands)

/-- Per-label satisfaction with namespace wildcards
(`src/filterPartContent.ts`): exact membership, or `ns::*` in the selection
against a concrete `ns::value`, or a `ns::*` label against any selected
`ns::...`. -/
def labelMatchesW (wildcard : Bool) (cands : List Str) (label : Str) : Bool :=
  let t := trimL label
  if t.isEmpty then false
  else if cands.contains t then true
  else if !wildcard then false
  else
    let parts := (splitOnColons t).take 2
    let ns := parts.getD 0 []
    let val := parts.getD 1 []
    if ns.isEmpty then false
    else if !val.isEmpty && cands.contains (ns ++ (':' :: ':' :: [ '*' ])) then true
    else if val = [ '*' ] then cands.any (fun cand => lstartsWith (ns ++ (':' :: [':'])) cand)
    else false

/-- AND-semantics matcher with wildcard support
(`src/filterPartContent.ts`). -/
def matchesAllLabelsW (labels : List Str) (cands : List Str) (wildcard : Bool) : Bool :=
  !labels.isEmpty && labels.all (labelMatchesW wildcard cands)

/-! ## Section decisions and the line-inclusion mask (`filterPartContent`) -/

/-- `SectionDecision`. -/
inductive Dec where
  | mk (node : Sec) (mtch keep : Bool) (children : List Dec)

def Dec.node : Dec → Sec
  | .mk n _ _ _ => n

def Dec.mtch : Dec → Bool
  | .mk _ m _ _ => m

def Dec.keep : Dec → Bool
  | .mk _ _ k _ => k

def Dec.children : Dec → List Dec
  | .mk _ _ _ cs => cs

mutual

/-- Per-node decision: `matches` only for labeled nodes, `keep = matches`
for labeled nodes and `true` for unlabeled ones. -/
def evaluateDec (cands : List Str) : Sec → Dec
  | .mk lvl t md s e cs =>
    let labs := (md.map Meta.labels).getD []
    let hasLabels := !labs.isEmpty
    let mtch := if hasLabels then matchesAllLabels labs cands else false
    let keep := if hasLabels then mtch else true
    .mk (.mk lvl t md s e cs) mtch keep (evaluateDecs cands cs)

/-- Decision list for a sibling list. -/
def evaluateDecs (cands : List Str) : List Sec → List Dec
  | [] => []
  | c :: cs => evaluateDec cands c :: evaluateDecs cands cs

end

/-- Embedding of `buildSectionDecisions` (the selection list models the
`Set` built from it; membership is unchanged). -/
def buildSectionDecisions (sections : List Sec) (labels : List Str) : List Dec :=
  evaluateDecs labels sections

/-- Insert into a sorted list, before the first element not `≤` the new one
(stability for the original order of equals). -/
def insertSorted {α : Type} (le : α → α → Bool) (x : α) : List α → List α
  | [] => [x]
  | y :: ys => if le x y then x :: y :: ys else y :: insertSorted le x ys

/-- Stable ascending sort (the unique stable order also produced by the
stable `Array.prototype.sort` of the source with a `≤`-style comparator). -/
def sortByStable {α : Type} (le : α → α → Bool) : List α → List α
  | [] => []
  | x :: xs => insertSorted le x (sortByStable le xs)

/-- Mark `[s, e]` true in the mask (out-of-range indices are no-ops, as the
clamped source never produces them). -/
def markRange (m : List Bool) (s e : Nat) : List Bool :=
  (List.range (e + 1 - s)).foldl (fun acc k => acc.set (s + k) true) m

/-- One iteration of the child loop of `process` (`createKeepMask`),
carrying `(mask, cursor, stopped)`; `stopped` models the two `break`
exits, `recur` is the recursive `process` call. -/
def processStep (lc sEnd : Nat) (recur : Dec → List Bool → List Bool)
    (st : List Bool × Nat × Bool) (c : Dec) : List Bool × Nat × Bool :=
  if st.2.2 then st
  else
    let cS := min c.node.startLine (lc - 1)
    let cE := min c.node.endLine (lc - 1)
    if sEnd < cS then (st.1, st.2.1, true)
    else
      let m1 := if st.2.1 < cS then markRange st.1 st.2.1 (min (cS - 1) sEnd) else st.1
      let m2 := recur c m1
      let cur2 := max st.2.1 (cE + 1)
      (m2, cur2, decide (sEnd < cur2))

/-- The `process` closure of `createKeepMask`; `fuel` dominates the decision
tree depth (supplied adequately by `createKeepMask`). -/
def processDecF (lineCount : Nat) : Nat → Dec → List Bool → List Bool
  | 0, _, mask => mask
  | fuel + 1, .mk node _mtch kp children, mask =>
    if !kp then mask
    else
      let sStart := min node.startLine (lineCount - 1)
      let sEnd := min node.endLine (lineCount - 1)
      if sEnd < sStart then mask
      else
        let sorted := sortByStable (fun a b => decide (a.node.startLine ≤ b.node.startLine)) children
        let res := sorted.foldl (processStep lineCount sEnd (processDecF lineCount fuel))
          (mask, sStart, false)
        if res.2.1 ≤ sEnd then markRange res.1 res.2.1 sEnd else res.1

mutual

/-- Size of a decision tree (fuel bound for `processDecF`). -/
def decSize : Dec → Nat
  | .mk _ _ _ cs => 1 + decSizeL cs

/-- Size of a decision forest. -/
def decSizeL : List Dec → Nat
  | [] => 0
  | d :: ds => decSize d + decSizeL ds

end

/-- Embedding of `createKeepMask`. -/
def createKeepMask (lineCount : Nat) (decisions : List Dec) : List Bool :=
  if lineCount = 0 then []
  else decisions.foldl (fun m d => processDecF lineCount (decSize d) d m)
    (List.replicate lineCount false)

/-- Replace the children of a node (the `{ ...decision.node, children }`
spread). -/
def Sec.withChildren : Sec → List Sec → Sec
  | .mk l t m s e _, cs => .mk l t m s e cs

mutual

/-- Embedding of `collectMatchedSections`. -/
def collectMatchedSections : List Dec → List Sec
  | [] => []
  | d :: ds => collectMatchedOne d ++ collectMatchedSections ds

/-- Contribution of a single decision to `collectMatchedSections`. -/
def collectMatchedOne : Dec → List Sec
  | .mk n _ k cs => if k then [n.withChildren (collectMatchedSections cs)] else []

end

mutual

/-- Embedding of `countSections`. -/
def countSections : List Sec → Nat
  | [] => 0
  | s :: ss => countSectionsOne s + countSections ss

/-- The `1 + countSections(children)` contribution of one section. -/
def countSectionsOne : Sec → Nat
  | .mk _ _ _ _ _ cs => 1 + countSections cs

end

/-! ## Insertions (anchors and See-also paragraphs) -/

/-- Link index entries: a bare title string, or `{ title, file? }`. -/
inductive LinkEntry where
  | strE (title : Str)
  | objE (title : Str) (file : Option Str)

/-- The scanning loop of `resolveHeadingLine`: skip metadata lines, stop at
the first heading, bail out at other non-empty content. -/
def resolveLoop (lines : List Str) (last : Nat) : Nat → Nat → Option Nat
  | _, 0 => none
  | idx, fuel + 1 =>
    if last < idx then none
    else
      let t := trimL (lines.getD idx [])
      if metaTest t then resolveLoop lines last (idx + 1) fuel
      else if headingTestMd t then some idx
      else if !t.isEmpty then none
      else resolveLoop lines last (idx + 1) fuel

/-- Embedding of `resolveHeadingLine` (falls back to the node's start
line). -/
def resolveHeadingLine (lines : List Str) (node : Sec) : Nat :=
  let last := min (lines.length - 1) node.endLine
  (resolveLoop lines last node.startLine (last + 2 - node.startLine)).getD node.startLine

/-- Rendering of one resolvable `link_to` entry (the inner loop of
`buildInsertions`): `xref:file#id[title]` across files (both filenames
present, non-empty and different), `<<id,title>>` otherwise. -/
def renderRef (currentFile : Option Str) (linkId : Str) : LinkEntry → Str
  | .strE t => ('<' :: '<' :: (linkId ++ (',' :: (t ++ ('>' :: ['>'])))))
  | .objE t f =>
    let isXref := match f, currentFile with
      | some fv, some cf => !fv.isEmpty && !cf.isEmpty && fv != cf
      | _, _ => false
    if isXref then
      (("xref:".data) ++ (f.getD []) ++ ('#' :: (linkId ++ ('[' :: (t ++ [ ']' ])))))
    else ('<' :: '<' :: (linkId ++ (',' :: (t ++ ('>' :: ['>'])))))

/-- JS truthiness of a looked-up link-index entry (`if (!entry) continue`):
an empty-string entry is falsy and skipped like a missing key; an object
entry is always truthy. -/
def entryTruthy : LinkEntry → Bool
  | .strE t => !t.isEmpty
  | .objE _ _ => true

/-- The rendered references of a `link_to` list: unresolvable ids and falsy
(empty-string) entries are skipped. -/
def buildRefs (links : List Str) (idx : List (Str × LinkEntry)) (currentFile : Option Str) :
    List Str :=
  links.foldl
    (fun acc linkId =>
      match List.lookup linkId idx with
      | none => acc
      | some e => if entryTruthy e then acc ++ [renderRef currentFile linkId e] else acc)
    []

/-- The anchor line `[#id]`. -/
def anchorStr (id : Str) : Str := '[' :: '#' :: (id ++ [ ']' ])

/-- Embedding of `Array.prototype.join` with a separator. -/
def joinSep (sep : Str) : List Str → Str
  | [] => []
  | [l] => l
  | l :: next :: rest => l ++ sep ++ joinSep sep (next :: rest)

/-- The See-also paragraph `TIP: <verb> <refs joined by comma-space>.`. -/
def tipStr (verb : Str) (refs : List Str) : Str :=
  ("TIP: ".data) ++ verb ++ (' ' :: (joinSep (", ".data) refs ++ [ '.' ]))

mutual

/-- The `visit` closure of `buildInsertions` (verb abstracted; the source
hardcodes the English verb). Later `Map.set` writes shadow earlier ones via
cons + first-match lookup. -/
def visitIns (verb : Str) (lines : List Str) (keepMask : List Bool)
    (idx : List (Str × LinkEntry)) (hasLinks : Bool) (currentFile : Option Str) :
    Sec → List (Nat × Str) × List (Nat × Str) → List (Nat × Str) × List (Nat × Str)
  | .mk lvl ttl md sL eL cs, (anch, see) =>
    let node : Sec := .mk lvl ttl md sL eL cs
    let hl := resolveHeadingLine lines node
    let acc1 :=
      if keepMask.getD hl false then
        let idTrim := (md.bind Meta.id).map trimL
        let anch1 := match idTrim with
          | some i => if !i.isEmpty then (hl, anchorStr i) :: anch else anch
          | none => anch
        let see1 :=
          if hasLinks then
            let links := (md.map Meta.linkTo).getD []
            if !links.isEmpty then
              let refs := buildRefs links idx currentFile
              if !refs.isEmpty then (hl, tipStr verb refs) :: see else see
            else see
          else see
        (anch1, see1)
      else (anch, see)
    visitInsL verb lines keepMask idx hasLinks currentFile cs acc1

/-- Forest traversal of `visit`. -/
def visitInsL (verb : Str) (lines : List Str) (keepMask : List Bool)
    (idx : List (Str × LinkEntry)) (hasLinks : Bool) (currentFile : Option Str) :
    List Sec → List (Nat × Str) × List (Nat × Str) → List (Nat × Str) × List (Nat × Str)
  | [], acc => acc
  | c :: cs, acc =>
    visitInsL verb lines keepMask idx hasLinks currentFile cs
      (visitIns verb lines keepMask idx hasLinks currentFile c acc)

end

/-- The `hasLinks` guard of `buildInsertions` (`Object.keys(linkIndex).length > 0`). -/
def hasLinksOf (linkIndex : Option (List (Str × LinkEntry))) : Bool :=
  match linkIndex with
  | some l => !l.isEmpty
  | none => false

/-- Embedding of `buildInsertions`, with the See-also verb as a parameter
(`"See also"` reproduces the source literal). -/
def buildInsertionsV (verb : Str) (sections : List Sec) (lines : List Str)
    (keepMask : List Bool) (linkIndex : Option (List (Str × LinkEntry)))
    (currentFile : Option Str) : List (Nat × Str) × List (Nat × Str) :=
  visitInsL verb lines keepMask (linkIndex.getD []) (hasLinksOf linkIndex) currentFile
    sections ([], [])

/-! ## Content reassembly (`filterPartContent`) -/

/-- Line classification used by the blank-output spacing pass. -/
inductive LineType where
  | heading
  | attribute
  | anchor
  | seeAlsoT
  | other
deriving DecidableEq

/-- Embedding of `classifyLine` (test order as in the source). -/
def classifyLine (line : Str) : LineType :=
  let t := trimL line
  if headingTestMd t then .heading
  else if attrTest t then .attribute
  else if seeAlsoTest t then .seeAlsoT
  else if anchorTest t then .anchor
  else .other

/-- Blank lines inserted between one line and the next by
`insertBlankLines`. -/
def blanksBetween (cur next : Str) : List Str :=
  match classifyLine cur with
  | .attribute => if classifyLine next ≠ .attribute then [[]] else []
  | .heading =>
    if classifyLine next = .heading ∨ classifyLine next = .anchor then [[]] else []
  | .seeAlsoT => [[]]
  | .anchor => []
  | .other => if !(trimL cur).isEmpty then [[]] else []

/-- Pairwise walk of `insertBlankLines` (the final element is pushed without
a separator). -/
def insertBlanksGo : List Str → List Str
  | [] => []
  | [l] => [l]
  | l :: next :: rest => l :: (blanksBetween l next ++ insertBlanksGo (next :: rest))

/-- Embedding of `insertBlankLines`. -/
def insertBlankLines (ls : List Str) : List Str :=
  if ls.isEmpty then ls else insertBlanksGo ls

/-- Embedding of `removeTrailingEmptyLines` (modelled as returning the
popped list). -/
def removeTrailingEmptyLines (ls : List Str) : List Str :=
  (ls.reverse.dropWhile (fun l => (trimL l).isEmpty)).reverse

/-- Embedding of `finalizeContent`. -/
def finalizeContent (ls : List Str) (hadTrailingNewline : Bool) : Str :=
  if ls.isEmpty then []
  else joinSep ("\n".data) ls ++ (if hadTrailingNewline then ("\n".data) else [])

/-- The reassembly loop of `filterPartContent`: per kept line, metadata lines
are dropped, headings (with their anchor and See-also insertions) and
attribute lines go to both outputs, anything else only to the template. -/
def assembleGo (anchors seeAlso : List (Nat × Str)) (includeAnchors : Bool)
    (mask : List Bool) : Nat → List Str → List Str × List Str
  | _, [] => ([], [])
  | i, l :: rest =>
    let (tmpl, blank) := assembleGo anchors seeAlso includeAnchors mask (i + 1) rest
    if !mask.getD i false then (tmpl, blank)
    else
      let trimmed := trimL l
      if metaTest trimmed then (tmpl, blank)
      else if headingTestMd trimmed then
        let pre := match List.lookup i anchors with
          | some a => if !a.isEmpty && includeAnchors then [a] else []
          | none => []
        let post := match List.lookup i seeAlso with
          | some sa => if !sa.isEmpty then [sa] else []
          | none => []
        (pre ++ l :: post ++ tmpl, pre ++ l :: post ++ blank)
      else if attrTest trimmed then (l :: tmpl, l :: blank)
      else (l :: tmpl, blank)

/-- Unmark `[s, e]` in the mask (the drop-title pass). -/
def unmarkRange (m : List Bool) (s e : Nat) : List Bool :=
  (List.range (e + 1 - s)).foldl (fun acc k => acc.set (s + k) false) m

mutual

/-- The `dropByNode` closure of the drop-title pass: a level `≥ 2` node whose
trimmed lowercased title is in the drop set has its whole line range forced
out; otherwise its children are visited. -/
def dropByNode (dropTitles : List Str) (lineCount : Nat) : Sec → List Bool → List Bool
  | .mk lvl ttl _ sL eL cs, mask =>
    let shouldDrop := decide (2 ≤ lvl) && dropTitles.contains (lowerL (trimL ttl))
    if shouldDrop then unmarkRange mask sL (min eL (lineCount - 1))
    else dropByNodes dropTitles lineCount cs mask

/-- Forest traversal of `dropByNode`. -/
def dropByNodes (dropTitles : List Str) (lineCount : Nat) : List Sec → List Bool → List Bool
  | [], mask => mask
  | c :: cs, mask => dropByNodes dropTitles lineCount cs (dropByNode dropTitles lineCount c mask)

end

/-- `FilterPartContentOptions` of the current filter module. -/
structure FilterOptions where
  includeLabels : List Str := []
  dropTitles : List Str := []
  linkIndex : Option (List (Str × LinkEntry)) := none
  includeAnchors : Option Bool := none
  currentFile : Option Str := none

/-- `FilterPartContentResult`. -/
structure FilterResult where
  templateContent : Str
  blankContent : Str
  keptSections : Nat

/-- Embedding of `normalizeLabels`. -/
def normalizeLabels (labels : List Str) : List Str :=
  (labels.map trimL).filter (fun l => !l.isEmpty)

/-- Force the first loose level-1 heading line back into the mask. -/
def forceH1 (lines : List Str) (mask : List Bool) : List Bool :=
  match findFirstLevelOneHeadingIndex lines with
  | some i => mask.set i true
  | none => mask

/-- Embedding of `filterPartContent`, with the See-also verb abstracted (the
source hardcodes the English verb; the manifest-language variant below
instantiates it per language). -/
def filterPartContentV (verb : Str) (rawContent : Str) (options : FilterOptions) :
    FilterResult :=
  let includeLabels := normalizeLabels options.includeLabels
  let dropTitles := (options.dropTitles.map (fun v => lowerL (trimL v))).filter
    (fun v => !v.isEmpty)
  let lines := splitLines rawContent
  let includeAnchors := options.includeAnchors.getD true
  let sections := parseAsciiDocSectionsP rawContent
  let (filteredSections, keepMask0) :=
    if !includeLabels.isEmpty then
      let decisions := buildSectionDecisions sections includeLabels
      (collectMatchedSections decisions,
       forceH1 lines (createKeepMask lines.length decisions))
    else (sections, List.replicate lines.length true)
  let keepMask :=
    if !dropTitles.isEmpty then
      forceH1 lines (dropByNodes dropTitles lines.length sections keepMask0)
    else keepMask0
  let hadTrailingNewline := lendsWith ("\n".data) rawContent || lendsWith ("\r\n".data) rawContent
  let (anchors, seeAlso) :=
    buildInsertionsV verb sections lines keepMask options.linkIndex options.currentFile
  let (templateLines, blankLines) := assembleGo anchors seeAlso includeAnchors keepMask 0 lines
  let templateLines1 := removeTrailingEmptyLines templateLines
  let blankLines1 := removeTrailingEmptyLines blankLines
  { templateContent := finalizeContent templateLines1 hadTrailingNewline,
    blankContent := finalizeContent (insertBlankLines blankLines1) hadTrailingNewline,
    keptSections := countSections filteredSections }

/-- Embedding of the current `filterPartContent` (hardcoded English
See-also verb). -/
def filterPartContent (rawContent : Str) (options : FilterOptions) : FilterResult :=
  filterPartContentV ("See also".data) rawContent options

/-- Modelled from the spec: the localized See-also verb of the current (not
snapshotted) filter entry point — `"Voir aussi"` for the French manifest
language code, `"See also"` for English and any unrecognized code. -/
def seeAlsoVerb (lang : Str) : Str :=
  if lang = ("fr".data) then ("Voir aussi".data) else ("See also".data)

/-- Modelled from the spec: the current filter entry point receives the
manifest's declared language and localizes the See-also verb accordingly;
everything else is the snapshotted `filterPartContent` pipeline. -/
def filterPartContentLang (manifestLang : Str) (rawContent : Str) (options : FilterOptions) :
    FilterResult :=
  filterPartContentV (seeAlsoVerb manifestLang) rawContent options

/-! ## Orchestration layer (`generateFilteredParts`) -/

/-- One manifest `parts` entry. -/
structure ManifestPart where
  name : Str
  file : Str

/-- The manifest fields read by `buildFilteredPartsFromResult`. -/
structure ManifestData where
  language : Option Str := none
  parts : List ManifestPart := []

/-- `TemplateWithParts.metadata` (only the `data` field is read). -/
structure TemplateMetadataT where
  data : ManifestData

/-- One fetched part (`content = []` models a missing/empty body, both
falsy). -/
structure PartT where
  name : Str
  file : Str
  content : Str := []
  sections : List Sec := []

/-- `TemplateWithParts`. -/
structure TemplateWithParts where
  metadata : TemplateMetadataT
  parts : List PartT

/-- `FilteredPart`. -/
structure FilteredPart where
  name : Str
  file : Str
  templateContent : Str
  blankContent : Str

/-- Optional options of `buildFilteredPartsFromResult`. -/
structure GenOpts where
  includeAnchors : Option Bool := none

mutual

/-- Label-discovery visit of `buildKnownLabelSet` (the set is modelled as a
list; only membership is read). -/
def knownVisit : Sec → List Str → List Str
  | .mk _ _ md _ _ cs, acc =>
    let acc1 := ((md.map Meta.labels).getD []).foldl
      (fun a l => let t := trimL l; if t.isEmpty then a else a ++ [t]) acc
    knownVisitL cs acc1

/-- Forest traversal of the label-discovery visit. -/
def knownVisitL : List Sec → List Str → List Str
  | [], acc => acc
  | c :: cs, acc => knownVisitL cs (knownVisit c acc)

end

/-- Embedding of `buildKnownLabelSet` (section-discovery version). -/
def buildKnownLabelSet (result : TemplateWithParts) : List Str :=
  result.parts.foldl (fun acc p => knownVisitL p.sections acc) []

mutual

/-- Index-building visit of `buildLinkIndex`; a later assignment to the same
id shadows an earlier one (cons plus first-match lookup). -/
def linkVisit (file : Str) : Sec → List (Str × LinkEntry) → List (Str × LinkEntry)
  | .mk _ ttl md _ _ cs, acc =>
    let idTrim := (md.bind Meta.id).map trimL
    let acc1 := match idTrim with
      | some i => if !i.isEmpty then (i, LinkEntry.objE ttl (some file)) :: acc else acc
      | none => acc
    linkVisitL file cs acc1

/-- Forest traversal of the index-building visit. -/
def linkVisitL (file : Str) : List Sec → List (Str × LinkEntry) → List (Str × LinkEntry)
  | [], acc => acc
  | c :: cs, acc => linkVisitL file cs (linkVisit file c acc)

end

/-- Embedding of `buildLinkIndex`. -/
def buildLinkIndexT (result : TemplateWithParts) : List (Str × LinkEntry) :=
  result.parts.foldl (fun acc p => linkVisitL p.file p.sections acc) []

/-- Last manifest index of a part file (`new Map` keeps the last duplicate
key); missing files order last (`Number.MAX_SAFE_INTEGER`), modelled by the
manifest length. -/
def manifestOrderIdx (mparts : List ManifestPart) (f : Str) : Nat :=
  match (mparts.enum.filter (fun p => p.2.file == f)).getLast? with
  | some p => p.1
  | none => mparts.length

/-- Embedding of `buildFilteredPartsFromResult`: the unknown-label check
throws (models as `Except.error`) before any part is filtered; otherwise the
parts are filtered in manifest order and empty results are dropped. -/
def buildFilteredPartsFromResult (result : TemplateWithParts) (labelsToInclude : List Str)
    (knownSet : Option (List Str)) (dropByPart : Option (List (Str × List Str)))
    (opts : Option GenOpts) : Except Str (List FilteredPart) :=
  let manifestLang := (result.metadata.data.language).getD ("en".data)
  let knownLabels := knownSet.getD (buildKnownLabelSet result)
  let unknown := labelsToInclude.filter (fun l => !knownLabels.contains l)
  if !labelsToInclude.isEmpty && !unknown.isEmpty then
    Except.error (("Unknown label(s): ".data) ++ joinSep (", ".data) unknown)
  else
    let mparts := result.metadata.data.parts
    let orderedParts := sortByStable
      (fun a b => decide (manifestOrderIdx mparts a.file ≤ manifestOrderIdx mparts b.file))
      result.parts
    let linkIndex := buildLinkIndexT result
    Except.ok (orderedParts.foldl
      (fun acc part =>
        if part.content.isEmpty then acc
        else
          let filtered := filterPartContentLang manifestLang part.content
            { includeLabels := labelsToInclude,
              dropTitles := ((dropByPart.getD []).lookup part.file).getD [],
              linkIndex := some linkIndex,
              currentFile := some part.file,
              includeAnchors := some ((opts.map GenOpts.includeAnchors).getD none |>.getD true) }
          let hasTemplate := !(trimL filtered.templateContent).isEmpty
          let hasBlank := !(trimL filtered.blankContent).isEmpty
          if !hasTemplate && !hasBlank then acc
          else acc ++ [{ name := part.name, file := part.file,
                         templateContent := filtered.templateContent,
                         blankContent := filtered.blankContent }])
      [])

/-! ## General lemmas about the string embedding -/

theorem lstartsWith_append (p x : Str) : lstartsWith p (p ++ x) = true := by
  induction p with
  | nil => rfl
  | cons c cs ih => simp [lstartsWith, ih]

theorem containsSeg_of_starts {p s : Str} (h : lstartsWith p s = true) :
    containsSeg p s = true := by
  cases s with
  | nil => simpa [containsSeg] using h
  | cons c rest => simp [containsSeg, h]

theorem containsSeg_append_right {p y : Str} (x : Str) (h : containsSeg p y = true) :
    containsSeg p (x ++ y) = true := by
  induction x with
  | nil => simpa using h
  | cons c cs ih => simp [containsSeg, ih]

theorem splitOnColons_ne_nil (s : Str) : splitOnColons s ≠ [] := by
  induction s using splitOnColons.induct with
  | case1 => simp [splitOnColons]
  | case2 rest ih => simp [splitOnColons]
  | case3 c rest h ih ih2 => simp [splitOnColons, ih]
  | case4 c rest h l ls hsplit => simp [splitOnColons, hsplit]

theorem containsSeg_cons_false {p : Str} {c : Char} {rest : Str}
    (h : containsSeg p (c :: rest) = false) :
    lstartsWith p (c :: rest) = false ∧ containsSeg p rest = false := by
  simpa [containsSeg] using h

theorem splitOnColons_noSep {s : Str} (h : containsSeg (':' :: [':']) s = false) :
    splitOnColons s = [s] := by
  induction s using splitOnColons.induct with
  | case1 => rfl
  | case2 rest ih => simp [containsSeg, lstartsWith] at h
  | case3 c rest hpat hmatch ih =>
    have h2 := (containsSeg_cons_false h).2
    rw [ih h2] at hmatch
    exact absurd hmatch (by simp)
  | case4 c rest hpat l ls hmatch ih =>
    have h2 := (containsSeg_cons_false h).2
    have := ih h2
    rw [this] at hmatch
    obtain ⟨rfl, rfl⟩ : l = rest ∧ ls = [] := by
      constructor <;> injection hmatch <;> simp_all
    simp [splitOnColons, this]

theorem lendsWith_single_cons {x c : Char} {a : Str} (h : a ≠ []) :
    lendsWith [x] (c :: a) = lendsWith [x] a := by
  obtain ⟨e, t, he⟩ : ∃ e t, a.reverse = e :: t := by
    cases har : a.reverse with
    | nil => exact absurd (by simpa using congrArg List.reverse har) h
    | cons e t => exact ⟨e, t, rfl⟩
  simp [lendsWith, List.reverse_cons, he, lstartsWith]

theorem splitOnColons_append_sep {a : Str} (hfree : containsSeg (':' :: [':']) a = false)
    (hlast : lendsWith ([':']) a = false) (b : Str) :
    splitOnColons (a ++ ':' :: ':' :: b) = a :: splitOnColons b := by
  induction a with
  | nil => simp [splitOnColons.eq_2]
  | cons c a' ih =>
    have hside : ∀ r, c = ':' → (a' ++ ':' :: ':' :: b) = ':' :: r → False := by
      intro r hc hr
      cases a' with
      | nil =>
        subst hc
        simp [lendsWith, lstartsWith] at hlast
      | cons d a'' =>
        have hd : d = ':' := by
          have := congrArg List.headI hr
          simpa using this
        subst hc; subst hd
        have h1 := (containsSeg_cons_false hfree).1
        simp [lstartsWith] at h1
    rw [List.cons_append, splitOnColons.eq_3 _ _ hside]
    cases a' with
    | nil => simp [splitOnColons.eq_2]
    | cons d a'' =>
      have hfree2 : containsSeg (':' :: [':']) (d :: a'') = false :=
        (containsSeg_cons_false hfree).2
      have hlast2 : lendsWith ([':']) (d :: a'') = false := by
        rwa [lendsWith_single_cons (by simp)] at hlast
      rw [ih hfree2 hlast2]

theorem dropWhile_eq_self_of_len {p : Char → Bool} {l : Str}
    (h : (l.dropWhile p).length = l.length) : l.dropWhile p = l := by
  cases l with
  | nil => rfl
  | cons c rest =>
    by_cases hc : p c
    · exfalso
      have hdrop : (c :: rest).dropWhile p = rest.dropWhile p := by
        simp [List.dropWhile_cons, hc]
      rw [hdrop] at h
      have := (List.dropWhile_sublist (l := rest) p).length_le
      simp at h
      omega
    · simp [List.dropWhile_cons, hc]

theorem trim_parts {s : Str} (h : trimL s = s) : trimStartL s = s ∧ trimEndL s = s := by
  have hlen := congrArg List.length h
  have hle1 : (trimL s).length ≤ (trimEndL s).length := by
    simpa [trimL, trimStartL] using (List.dropWhile_sublist (l := trimEndL s) jsWs).length_le
  have hle2 : (trimEndL s).length ≤ s.length := by
    simpa [trimEndL] using (List.dropWhile_sublist (l := s.reverse) jsWs).length_le
  have hEndLen : (trimEndL s).length = s.length := by omega
  have hEnd : trimEndL s = s := by
    have h1 : (s.reverse.dropWhile jsWs).length = s.reverse.length := by
      simpa [trimEndL] using hEndLen
    have h2 := dropWhile_eq_self_of_len h1
    have := congrArg List.reverse h2
    simpa [trimEndL] using this
  refine ⟨?_, hEnd⟩
  have : trimL s = trimStartL s := by rw [trimL, hEnd]
  rw [← this, h]

theorem head_not_ws_of_trimStart {c : Char} {rest : Str}
    (h : trimStartL (c :: rest) = c :: rest) : jsWs c = false := by
  by_cases hc : jsWs c
  · exfalso
    have hdrop : trimStartL (c :: rest) = rest.dropWhile jsWs := by
      simp [trimStartL, List.dropWhile_cons, hc]
    rw [hdrop] at h
    have h1 := congrArg List.length h
    have := (List.dropWhile_sublist (l := rest) jsWs).length_le
    simp at h1
    omega
  · exact Bool.eq_false_iff.mpr hc

theorem trim_head_decomp {s : Str} (h : trimL s = s) (hne : s ≠ []) :
    ∃ c rest, s = c :: rest ∧ jsWs c = false := by
  obtain ⟨hStart, _⟩ := trim_parts h
  cases s with
  | nil => exact absurd rfl hne
  | cons c rest => exact ⟨c, rest, rfl, head_not_ws_of_trimStart hStart⟩

theorem trim_last_decomp {s : Str} (h : trimL s = s) (hne : s ≠ []) :
    ∃ d t, s.reverse = d :: t ∧ jsWs d = false := by
  obtain ⟨_, hEnd⟩ := trim_parts h
  have hrev : s.reverse.dropWhile jsWs = s.reverse := by
    have := congrArg List.reverse hEnd
    simpa [trimEndL] using this
  cases hs : s.reverse with
  | nil => exact absurd (by simpa using congrArg List.reverse hs) hne
  | cons d t =>
    rw [hs] at hrev
    exact ⟨d, t, rfl, head_not_ws_of_trimStart hrev⟩

theorem trimL_eq_self_of_ends {s : Str} {c d : Char} (hh : s.head? = some c)
    (hc : jsWs c = false) (hl : s.reverse.head? = some d) (hd : jsWs d = false) :
    trimL s = s := by
  have hEnd : trimEndL s = s := by
    cases hs : s.reverse with
    | nil => rw [hs] at hl; exact absurd hl (by simp)
    | cons x t =>
      have hx : x = d := by rw [hs] at hl; simpa using hl
      subst hx
      have : s.reverse.dropWhile jsWs = s.reverse := by
        rw [hs]; simp [List.dropWhile_cons, hd]
      simp [trimEndL, this]
  have hStart : trimStartL s = s := by
    cases s with
    | nil => rfl
    | cons x rest =>
      have hx : x = c := by simpa using hh
      subst hx
      simp [trimStartL, List.dropWhile_cons, hc]
  rw [trimL, hEnd, hStart]

theorem contains_of_mem {a : Str} {l : List Str} (h : a ∈ l) : l.contains a = true := by
  simpa [List.contains] using List.elem_eq_true_of_mem h

theorem contains_false_of_ne {a b : Str} (h : b ≠ a) : List.contains [a] b = false := by
  have hba : (b == a) = false := beq_eq_false_iff_ne.mpr h
  simp [List.contains, List.elem, hba]

/-- The claim C2 states that the label match predicate has AND semantics
over the section's own label list: a section with labels `[A, B]` matches
iff the selection satisfies `A` and satisfies `B` (shown for both the
exact-membership matcher of the current filter module and the
wildcard-capable matcher of `src/filterPartContent.ts`); and a selection
containing only `A` does not match it for a distinct plain label `B`. -/
theorem c2_and_semantics :
    (∀ (A B : Str) (sel : List Str),
        matchesAllLabels (A :: [B]) sel = (labelSat sel A && labelSat sel B)) ∧
    (∀ (A B : Str) (sel : List Str) (w : Bool),
        matchesAllLabelsW (A :: [B]) sel w = (labelMatchesW w sel A && labelMatchesW w sel B)) ∧
    (∀ (A B : Str) (w : Bool), trimL B = B → B ≠ A → B ≠ [] →
        containsSeg (':' :: [':']) B = false →
        matchesAllLabels (A :: [B]) [A] = false ∧
        matchesAllLabelsW (A :: [B]) [A] w = false) := by
  have hAll : ∀ (A B : Str) (sel : List Str),
      matchesAllLabels (A :: [B]) sel = (labelSat sel A && labelSat sel B) := by
    intro A B sel
    simp [matchesAllLabels, Bool.and_assoc]
  have hAllW : ∀ (A B : Str) (sel : List Str) (w : Bool),
      matchesAllLabelsW (A :: [B]) sel w = (labelMatchesW w sel A && labelMatchesW w sel B) := by
    intro A B sel w
    simp [matchesAllLabelsW, Bool.and_assoc]
  refine ⟨hAll, hAllW, ?_⟩
  intro A B w hTrim hBA hBne hFree
  have hBsat : labelSat [A] B = false := by
    have hcont : List.contains [A] B = false := contains_false_of_ne hBA
    simp [labelSat, hTrim, hcont, hBne]
    exact hBA
  have hBsatW : labelMatchesW w [A] B = false := by
    have hcont : List.contains [A] B = false := contains_false_of_ne hBA
    have hsplit : (splitOnColons B).take 2 = [B] := by
      rw [splitOnColons_noSep hFree]
      rfl
    cases w with
    | false =>
      simp [labelMatchesW, hTrim, hBne, hcont]
      exact hBA
    | true =>
      simp only [labelMatchesW, hTrim, hcont, hsplit]
      simp [hBne]
  constructor
  · rw [hAll]; simp [hBsat]
  · rw [hAllW]; simp [hBsatW]

/-- Witness for C2: labels `["persistence", "advanced"]` with only
`"persistence"` selected do not match. -/
theorem c2_and_semantics_witness :
    matchesAllLabels (("persistence").data :: [("advanced").data]) [("persistence").data] = false ∧
    matchesAllLabelsW (("persistence").data :: [("advanced").data]) [("persistence").data] true = false :=
  c2_and_semantics.2.2 (("persistence").data) (("advanced").data) true
    (by decide) (by decide) (by decide) (by decide)

/-- The claim C5 states that with wildcard matching enabled, per-label
satisfaction is symmetric across the wildcard: a selection containing
`ns::*` satisfies a section label `ns::v` for a concrete `v`, and a
selection containing a concrete `ns::v` satisfies the section label
`ns::*` (shown for the matcher of `src/filterPartContent.ts`, for a
namespace and value that are trimmed, non-empty and separator-free). -/
theorem c5_wildcard_symmetry (ns v : Str) (sel : List Str)
    (hTrim : trimL ns = ns) (hNe : ns ≠ [])
    (hFree : containsSeg (':' :: [':']) ns = false)
    (hColon : lendsWith ([':']) ns = false)
    (hvTrim : trimL v = v) (hvNe : v ≠ [])
    (hvFree : containsSeg (':' :: [':']) v = false) :
    ((ns ++ (':' :: ':' :: [ '*' ])) ∈ sel →
       labelMatchesW true sel (ns ++ (':' :: ':' :: v)) = true) ∧
    ((ns ++ (':' :: ':' :: v)) ∈ sel →
       labelMatchesW true sel (ns ++ (':' :: ':' :: [ '*' ])) = true) := by
  obtain ⟨c, nrest, hns, hcws⟩ := trim_head_decomp hTrim hNe
  obtain ⟨d, vt, hvrev, hdws⟩ := trim_last_decomp hvTrim hvNe
  have htrim1 : trimL (ns ++ (':' :: ':' :: v)) = ns ++ (':' :: ':' :: v) := by
    refine trimL_eq_self_of_ends (c := c) (d := d) ?_ hcws ?_ hdws
    · rw [hns]; rfl
    · rw [List.reverse_append]
      have : (':' :: ':' :: v).reverse = v.reverse ++ [':', ':'] := by simp
      rw [this, hvrev]
      rfl
  have htrim2 : trimL (ns ++ (':' :: ':' :: [ '*' ])) = ns ++ (':' :: ':' :: [ '*' ]) := by
    refine trimL_eq_self_of_ends (c := c) (d := '*') ?_ hcws ?_ (by decide)
    · rw [hns]; rfl
    · rw [List.reverse_append]; rfl
  have hparts1 : (splitOnColons (ns ++ (':' :: ':' :: v))).take 2 = [ns, v] := by
    rw [splitOnColons_append_sep hFree hColon, splitOnColons_noSep hvFree]
    rfl
  have hparts2 : (splitOnColons (ns ++ (':' :: ':' :: [ '*' ]))).take 2 = [ns, [ '*' ]] := by
    rw [splitOnColons_append_sep hFree hColon, splitOnColons_noSep (by decide)]
    rfl
  have hsp1 : splitOnColons (ns ++ (':' :: ':' :: v)) = [ns, v] := by
    rw [splitOnColons_append_sep hFree hColon, splitOnColons_noSep hvFree]
  have hsp2 : splitOnColons (ns ++ (':' :: ':' :: [ '*' ])) = [ns, [ '*' ]] := by
    rw [splitOnColons_append_sep hFree hColon, splitOnColons_noSep (by decide)]
  constructor
  · intro hmem
    simp only [labelMatchesW, htrim1]
    simp [hsp1, hNe, hvNe]
    right; left
    simpa using hmem
  · intro hmem
    simp only [labelMatchesW, htrim2]
    simp [hsp2, hNe]
    right
    refine ⟨ns ++ (':' :: ':' :: v), hmem, ?_⟩
    have harr : ns ++ (':' :: ':' :: v) = (ns ++ (':' :: [':'])) ++ v := by simp
    rw [harr]
    exact lstartsWith_append _ _

/-- Witness for C5: selecting `level::*` matches a section labeled
`level::basic`, and selecting `level::basic` matches a section labeled
`level::*`. -/
theorem c5_wildcard_symmetry_witness :
    labelMatchesW true [(("level").data ++ (':' :: ':' :: [ '*' ]))]
      (("level").data ++ (':' :: ':' :: ("basic").data)) = true ∧
    labelMatchesW true [(("level").data ++ (':' :: ':' :: ("basic").data))]
      (("level").data ++ (':' :: ':' :: [ '*' ])) = true :=
  ⟨(c5_wildcard_symmetry (("level").data) (("basic").data) _
      (by decide) (by decide) (by decide) (by decide) (by decide) (by decide) (by decide)).1
      (List.mem_singleton.mpr rfl),
   (c5_wildcard_symmetry (("level").data) (("basic").data) _
      (by decide) (by decide) (by decide) (by decide) (by decide) (by decide) (by decide)).2
      (List.mem_singleton.mpr rfl)⟩

mutual

/-- A decision node together with all of its descendant decisions. -/
def decAllD : Dec → List Dec
  | .mk n m k cs => .mk n m k cs :: decAllL cs

/-- All decisions of a decision forest, including descendants. -/
def decAllL : List Dec → List Dec
  | [] => []
  | d :: ds => decAllD d ++ decAllL ds

end

mutual

theorem unlabeled_keep_sec (cands : List Str) :
    ∀ (s : Sec), ∀ d ∈ decAllD (evaluateDec cands s), d.node.labs = [] → d.keep = true
  | .mk lvl t md sL eL cs => by
    intro d hd hlab
    simp only [evaluateDec, decAllD, List.mem_cons] at hd
    rcases hd with rfl | hd
    · simp only [Sec.labs, Sec.metadata, Dec.node] at hlab
      simp [Dec.keep, Sec.labs, Sec.metadata, hlab]
    · exact unlabeled_keep_secs cands cs d hd hlab

theorem unlabeled_keep_secs (cands : List Str) :
    ∀ (ss : List Sec), ∀ d ∈ decAllL (evaluateDecs cands ss), d.node.labs = [] → d.keep = true
  | [] => by intro d hd; simp [evaluateDecs, decAllL] at hd
  | s :: ss => by
    intro d hd hlab
    simp only [evaluateDecs, decAllL, List.mem_append] at hd
    rcases hd with hd | hd
    · exact unlabeled_keep_sec cands s d hd hlab
    · exact unlabeled_keep_secs cands ss d hd hlab

end

/-- The claim C1 states that for every document forest and every label
selection, the decision builder assigns `keep = true` to every section whose
metadata carries no labels, regardless of the selection: a label selection
alone never removes an unlabeled section's decision. -/
theorem c1_unlabeled_always_kept (sections : List Sec) (selection : List Str) :
    ∀ d ∈ decAllL (buildSectionDecisions sections selection),
      d.node.labs = [] → d.keep = true := by
  intro d hd hlab
  exact unlabeled_keep_secs selection sections d hd hlab

/-- Witness for C1: an unlabeled section is kept under a selection that
matches nothing. -/
theorem c1_unlabeled_always_kept_witness :
    (evaluateDec [("x").data] (.mk 2 (("Plain").data) none 0 1 [])).keep = true :=
  c1_unlabeled_always_kept [.mk 2 (("Plain").data) none 0 1 []] [("x").data]
    (evaluateDec [("x").data] (.mk 2 (("Plain").data) none 0 1 []))
    (List.mem_cons_self _ _) rfl

/-- The claim C6 states that when the label selection is non-empty and
contains labels absent from the known label set, `buildFilteredPartsFromResult`
fails before filtering any part — no filtered output is produced at all — and
the error message is the literal `Unknown label(s): ` followed by every
unknown label of the selection joined by `, `. -/
theorem c6_unknown_labels_error (result : TemplateWithParts) (labelsToInclude : List Str)
    (knownSet : Option (List Str)) (dropByPart : Option (List (Str × List Str)))
    (opts : Option GenOpts)
    (hne : labelsToInclude ≠ [])
    (hunk : labelsToInclude.filter
      (fun l => !(knownSet.getD (buildKnownLabelSet result)).contains l) ≠ []) :
    buildFilteredPartsFromResult result labelsToInclude knownSet dropByPart opts =
      Except.error (("Unknown label(s): ".data) ++
        joinSep (", ".data) (labelsToInclude.filter
          (fun l => !(knownSet.getD (buildKnownLabelSet result)).contains l))) := by
  have h1 : labelsToInclude.isEmpty = false := by
    cases labelsToInclude with
    | nil => exact absurd rfl hne
    | cons _ _ => rfl
  have h2 : (labelsToInclude.filter
      (fun l => !(knownSet.getD (buildKnownLabelSet result)).contains l)).isEmpty = false := by
    cases hc : labelsToInclude.filter
        (fun l => !(knownSet.getD (buildKnownLabelSet result)).contains l) with
    | nil => exact absurd hc hunk
    | cons _ _ => rfl
  simp only [buildFilteredPartsFromResult, h1, h2]
  simp

/-- A minimal template for the C6 witness: one part, one labeled section. -/
def tplC6 : TemplateWithParts :=
  { metadata := ⟨{ language := none, parts := [⟨("P").data, ("p.adoc").data⟩] }⟩,
    parts := [{ name := ("P").data, file := ("p.adoc").data, content := ("# P").data,
                sections := [.mk 1 (("P").data)
                  (some { labels := [("known-label").data] }) 0 0 []] }] }

/-- Witness for C6: an unknown label raises the documented error message. -/
theorem c6_unknown_labels_error_witness :
    buildFilteredPartsFromResult tplC6 [("does-not-exist").data] none none none =
      Except.error (("Unknown label(s): does-not-exist").data) := by
  have h := c6_unknown_labels_error tplC6 [("does-not-exist").data] none none none
    (by decide) (by decide)
  exact h.trans (congrArg Except.error (by decide))

/-- Generic association-list fact: a successful lookup is a member. -/
theorem lookup_mem {α β : Type} [BEq α] [LawfulBEq α] {k : α} {v : β} :
    ∀ {l : List (α × β)}, List.lookup k l = some v → (k, v) ∈ l := by
  intro l
  induction l with
  | nil => intro h; simp [List.lookup] at h
  | cons p rest ih =>
    intro h
    rw [List.lookup] at h
    cases hk : (k == p.1) with
    | true =>
      rw [hk] at h
      have h1 : p.2 = v := by
        simpa using h
      have h2 : p.1 = k := (eq_of_beq hk).symm
      have hp : p = (k, v) := by
        rw [← h1, ← h2]
      rw [hp]
      exact List.mem_cons_self _ _
    | false =>
      rw [hk] at h
      exact List.mem_cons_of_mem _ (ih h)

theorem buildRefs_eq_filterMap (idx : List (Str × LinkEntry)) (cfo : Option Str) :
    ∀ (links : List Str) (acc : List Str),
      links.foldl (fun acc linkId =>
        match List.lookup linkId idx with
        | none => acc
        | some e => if entryTruthy e then acc ++ [renderRef cfo linkId e] else acc) acc
      = acc ++ links.filterMap (fun linkId => (List.lookup linkId idx).bind
          (fun e => if entryTruthy e then some (renderRef cfo linkId e) else none)) := by
  intro links
  induction links with
  | nil => intro acc; simp
  | cons a links ih =>
    intro acc
    rw [List.foldl_cons, List.filterMap_cons]
    cases hl : List.lookup a idx with
    | none => simp only [hl]; exact ih acc
    | some e =>
      simp only [hl, Option.some_bind]
      by_cases ht : entryTruthy e = true
      · simp only [ht, if_true]
        rw [ih (acc ++ [renderRef cfo a e])]
        simp
      · rw [Bool.not_eq_true] at ht
        simp only [ht, Bool.false_eq_true, if_false]
        exact ih acc

/-- Modelled from the spec's wording of C7: a resolvable entry renders as
`xref:file#id[title]` exactly when the target's file differs from the
current part's file, and as `<<id,title>>` when it is the same file or the
entry has no file. -/
def renderRefSpec (cf : Str) (linkId : Str) : LinkEntry → Str
  | .strE t => '<' :: '<' :: (linkId ++ (',' :: (t ++ ('>' :: ['>']))))
  | .objE t none => '<' :: '<' :: (linkId ++ (',' :: (t ++ ('>' :: ['>']))))
  | .objE t (some f) =>
    if f ≠ cf then (("xref:".data) ++ f ++ ('#' :: (linkId ++ ('[' :: (t ++ [ ']' ])))))
    else '<' :: '<' :: (linkId ++ (',' :: (t ++ ('>' :: ['>']))))

/-- C7 counterexample: an empty-string index entry is falsy, so the
program's `if (!entry) continue` skips it even though its id resolves in
the index; the claim instead says every resolvable entry is rendered, here
as `<<a,>>`. -/
theorem c7_counterexample :
    buildRefs [("a").data] [(("a").data, LinkEntry.strE [])] (some (("cur.adoc").data))
      = [] ∧
    [("a").data].filterMap (fun linkId =>
      (List.lookup linkId [(("a").data, LinkEntry.strE [])]).map
        (renderRefSpec (("cur.adoc").data) linkId)) = [("<<a,>>").data] := by
  constructor
  · decide
  · decide

/-- The claim C7, amended as the counterexample forces: for a part with a
(non-empty) current file and a link index whose object entries carry
non-empty file names, the rendered references of a `link_to` list are
exactly one reference per resolvable *truthy* entry — rendered as
`xref:file#id[title]` when the target's file differs from the current file
and as `<<id,title>>` when it is the same file or the entry has no file —
while unresolvable ids and falsy (empty-string) entries are skipped without
error. -/
theorem c7_link_rendering (links : List Str) (idx : List (Str × LinkEntry)) (cf : Str)
    (hcf : cf ≠ [])
    (hfiles : idx.all (fun p => match p.2 with
      | .objE _ (some f) => !f.isEmpty
      | _ => true) = true) :
    buildRefs links idx (some cf) =
      links.filterMap (fun linkId => (List.lookup linkId idx).bind
        (fun e => if entryTruthy e then some (renderRefSpec cf linkId e) else none)) := by
  rw [buildRefs, buildRefs_eq_filterMap]
  rw [List.nil_append]
  apply List.filterMap_congr
  intro a _
  cases hl : List.lookup a idx with
  | none => rfl
  | some e =>
    simp only [Option.some_bind]
    by_cases ht : entryTruthy e = true
    · simp only [ht, if_true]
      congr 1
      cases e with
      | strE t => rfl
      | objE t fo =>
        cases fo with
        | none => rfl
        | some f =>
          have hmem := lookup_mem hl
          have hfv := List.all_eq_true.mp hfiles _ hmem
          have hf : f.isEmpty = false := by
            simpa using hfv
          have hcfe : cf.isEmpty = false := by
            cases cf with
            | nil => exact absurd rfl hcf
            | cons _ _ => rfl
          by_cases hfc : f = cf
          · simp [renderRef, renderRefSpec, hf, hcfe, hfc]
          · have hbne : (f != cf) = true := by
              simp [bne_iff_ne]
              exact hfc
            simp [renderRef, renderRefSpec, hf, hcfe, hbne, hfc]
    · rw [Bool.not_eq_true] at ht
      simp only [ht, Bool.false_eq_true, if_false]

/-- Witness for the amended C7: a cross-file target renders as an `xref`, a
same-file string entry renders in-document, an unresolvable id and a falsy
empty-string entry are skipped. -/
theorem c7_link_rendering_witness :
    buildRefs [("a").data, ("missing").data, ("c").data, ("b").data]
      [(("a").data, LinkEntry.objE (("TitleA").data) (some (("other.adoc").data))),
       (("b").data, LinkEntry.strE (("TitleB").data)),
       (("c").data, LinkEntry.strE [])]
      (some (("cur.adoc").data)) =
      [("a").data, ("missing").data, ("c").data, ("b").data].filterMap
        (fun linkId =>
          (List.lookup linkId
            [(("a").data, LinkEntry.objE (("TitleA").data) (some (("other.adoc").data))),
             (("b").data, LinkEntry.strE (("TitleB").data)),
             (("c").data, LinkEntry.strE [])]).bind
            (fun e => if entryTruthy e then
              some (renderRefSpec (("cur.adoc").data) linkId e) else none)) :=
  c7_link_rendering _ _ _ (by decide) (by decide)

mutual

theorem visitIns_see_shape (verb : Str) (lines : List Str) (keepMask : List Bool)
    (idx : List (Str × LinkEntry)) (hasLinks : Bool) (cf : Option Str) :
    ∀ (s : Sec) (acc : List (Nat × Str) × List (Nat × Str)) (e : Nat × Str),
      e ∈ (visitIns verb lines keepMask idx hasLinks cf s acc).2 →
      e ∈ acc.2 ∨ ∃ refs, refs ≠ [] ∧ e.2 = tipStr verb refs
  | .mk lvl t md sL eL cs => by
    intro acc e he
    obtain ⟨anch, see⟩ := acc
    simp only [visitIns] at he
    have hstep := visitInsL_see_shape verb lines keepMask idx hasLinks cf cs _ e he
    rcases hstep with hacc | hshape
    · by_cases hkeep : keepMask.getD (resolveHeadingLine lines (Sec.mk lvl t md sL eL cs)) false
      · simp only [hkeep, if_true] at hacc
        by_cases hlk : hasLinks
        · by_cases hlinks : ((md.map Meta.linkTo).getD []).isEmpty
          · simp only [hlk, hlinks, Bool.not_true, if_false, if_true] at hacc
            left
            simpa using hacc
          · by_cases hrefs : (buildRefs ((md.map Meta.linkTo).getD []) idx cf).isEmpty
            · simp only [hlk, hlinks, hrefs] at hacc
              left
              simpa using hacc
            · simp only [hlk, hlinks, hrefs] at hacc
              simp only [Bool.not_false, if_true, List.mem_cons] at hacc
              rcases hacc with rfl | hacc
              · right
                refine ⟨buildRefs ((md.map Meta.linkTo).getD []) idx cf, ?_, rfl⟩
                intro hnil
                rw [hnil] at hrefs
                exact hrefs rfl
              · left; exact hacc
        · simp only [hlk, if_false] at hacc
          left
          simpa using hacc
      · simp only [hkeep, if_false] at hacc
        left
        exact hacc
    · right; exact hshape

theorem visitInsL_see_shape (verb : Str) (lines : List Str) (keepMask : List Bool)
    (idx : List (Str × LinkEntry)) (hasLinks : Bool) (cf : Option Str) :
    ∀ (ss : List Sec) (acc : List (Nat × Str) × List (Nat × Str)) (e : Nat × Str),
      e ∈ (visitInsL verb lines keepMask idx hasLinks cf ss acc).2 →
      e ∈ acc.2 ∨ ∃ refs, refs ≠ [] ∧ e.2 = tipStr verb refs
  | [] => by
    intro acc e he
    simp only [visitInsL] at he
    left; exact he
  | s :: ss => by
    intro acc e he
    simp only [visitInsL] at he
    have h1 := visitInsL_see_shape verb lines keepMask idx hasLinks cf ss _ e he
    rcases h1 with h1 | h1
    · exact visitIns_see_shape verb lines keepMask idx hasLinks cf s acc e h1
    · right; exact h1

end

/-- The claim C8 states that every inserted See-also paragraph is the text
`TIP: <LocalizedVerb> ` followed by the rendered references joined with
`, ` and a final period, where the localized verb is `Voir aussi` for the
French manifest language and `See also` for English or any unrecognized
code (the verb selection is modelled from the spec, the paragraph assembly
is the snapshotted `buildInsertions`). -/
theorem c8_localized_see_also (lang : Str) (sections : List Sec) (lines : List Str)
    (mask : List Bool) (linkIndex : Option (List (Str × LinkEntry))) (cf : Option Str) :
    (seeAlsoVerb ("fr".data) = ("Voir aussi".data)) ∧
    (seeAlsoVerb ("en".data) = ("See also".data)) ∧
    (∀ l, l ≠ ("fr".data) → seeAlsoVerb l = ("See also".data)) ∧
    (∀ e ∈ (buildInsertionsV (seeAlsoVerb lang) sections lines mask linkIndex cf).2,
      ∃ refs, refs ≠ [] ∧
        e.2 = ("TIP: ".data) ++ seeAlsoVerb lang ++
          (' ' :: (joinSep (", ".data) refs ++ [ '.' ]))) := by
  refine ⟨rfl, rfl, ?_, ?_⟩
  · intro l hl
    simp [seeAlsoVerb, hl]
  · intro e he
    simp only [buildInsertionsV] at he
    have := visitInsL_see_shape (seeAlsoVerb lang) lines mask (linkIndex.getD [])
      (hasLinksOf linkIndex) cf sections ([], []) e he
    rcases this with h | ⟨refs, hne, hshape⟩
    · simp at h
    · exact ⟨refs, hne, hshape⟩

/-- Witness for C8: with the French manifest language, a linked section's
inserted paragraph is the localized TIP text. -/
theorem c8_localized_see_also_witness :
    ∃ refs, refs ≠ [] ∧
      (((0 : Nat), ("TIP: Voir aussi <<s1,A>>.").data)).2 =
        ("TIP: ".data) ++ seeAlsoVerb (("fr").data) ++
          (' ' :: (joinSep (", ".data) refs ++ [ '.' ])) :=
  (c8_localized_see_also (("fr").data)
      [.mk 2 (("B").data) (some { id := some (("s2").data), linkTo := [("s1").data] }) 0 0 []]
      [("## B").data] [true]
      (some [(("s1").data, LinkEntry.strE (("A").data))]) (some (("p.adoc").data))).2.2.2
    ((0 : Nat), ("TIP: Voir aussi <<s1,A>>.").data) (by decide)

mutual

/-- No node of this section carries a non-empty trimmed id. -/
def secNoId : Sec → Bool
  | .mk _ _ md _ _ cs =>
    (match (md.bind Meta.id).map trimL with
     | some i => i.isEmpty
     | none => true) && secNoIdL cs

/-- No node of this forest carries a non-empty trimmed id. -/
def secNoIdL : List Sec → Bool
  | [] => true
  | s :: ss => secNoId s && secNoIdL ss

end

mutual

theorem visitIns_noId (verb : Str) (lines : List Str) (mask : List Bool)
    (idx : List (Str × LinkEntry)) (cf : Option Str) :
    ∀ (s : Sec), secNoId s = true →
      ∀ acc, visitIns verb lines mask idx false cf s acc = acc
  | .mk lvl t md sL eL cs => by
    intro hno acc
    obtain ⟨anch, see⟩ := acc
    have hparts : (match (md.bind Meta.id).map trimL with
        | some i => i.isEmpty
        | none => true) = true ∧ secNoIdL cs = true := by
      simpa [secNoId, Bool.and_eq_true] using hno
    have hacc1 : (if mask.getD (resolveHeadingLine lines (Sec.mk lvl t md sL eL cs)) false then
        ((match (md.bind Meta.id).map trimL with
          | some i => if !i.isEmpty then
              (resolveHeadingLine lines (Sec.mk lvl t md sL eL cs), anchorStr i) :: anch
            else anch
          | none => anch), see)
      else (anch, see)) = (anch, see) := by
      by_cases hk : mask.getD (resolveHeadingLine lines (Sec.mk lvl t md sL eL cs)) false
      · simp only [hk, if_true]
        cases hid : (md.bind Meta.id).map trimL with
        | none => rfl
        | some i =>
          have : i.isEmpty = true := by
            have := hparts.1
            rw [hid] at this
            exact this
          simp [this]
      · simp [hk]
        intro hcontra
        exact absurd (by simpa [List.getD] using hcontra) hk
    simp only [visitIns, Bool.false_eq_true, if_false]
    rw [hacc1]
    exact visitInsL_noId verb lines mask idx cf cs hparts.2 (anch, see)

theorem visitInsL_noId (verb : Str) (lines : List Str) (mask : List Bool)
    (idx : List (Str × LinkEntry)) (cf : Option Str) :
    ∀ (ss : List Sec), secNoIdL ss = true →
      ∀ acc, visitInsL verb lines mask idx false cf ss acc = acc
  | [] => by intro _ acc; rfl
  | s :: ss => by
    intro hno acc
    have hparts : secNoId s = true ∧ secNoIdL ss = true := by
      simpa [secNoIdL, Bool.and_eq_true] using hno
    simp only [visitInsL]
    rw [visitIns_noId verb lines mask idx cf s hparts.1 acc]
    exact visitInsL_noId verb lines mask idx cf ss hparts.2 acc

end

theorem replicate_getD_true (n : Nat) : ∀ k, k < n → (List.replicate n true).getD k false = true := by
  intro k hk
  simp [List.getD, List.getElem?_replicate, hk]

theorem foldl_inv {α σ : Type} (P : σ → Prop) (step : σ → α → σ)
    (h : ∀ st a, P st → P (step st a)) :
    ∀ (l : List α) (st : σ), P st → P (l.foldl step st) := by
  intro l
  induction l with
  | nil => intro st hst; exact hst
  | cons a l ih => intro st hst; exact ih _ (h st a hst)

theorem markRange_length (m : List Bool) (s e : Nat) : (markRange m s e).length = m.length := by
  unfold markRange
  exact foldl_inv (fun x => x.length = m.length) (fun acc k => acc.set (s + k) true)
    (fun st a hst => by simpa using hst) (List.range (e + 1 - s)) m rfl

theorem unmarkRange_length (m : List Bool) (s e : Nat) :
    (unmarkRange m s e).length = m.length := by
  unfold unmarkRange
  exact foldl_inv (fun x => x.length = m.length) (fun acc k => acc.set (s + k) false)
    (fun st a hst => by simpa using hst) (List.range (e + 1 - s)) m rfl

theorem processStep_length (lc sEnd : Nat) (recur : Dec → List Bool → List Bool)
    (hrec : ∀ c m, (recur c m).length = m.length) :
    ∀ (st : List Bool × Nat × Bool) (c : Dec),
      (processStep lc sEnd recur st c).1.length = st.1.length := by
  intro st c
  unfold processStep
  dsimp only
  split
  · rfl
  · split
    · rfl
    · rw [hrec]
      split
      · rw [markRange_length]
      · rfl

theorem processDecF_length (lc : Nat) :
    ∀ (fuel : Nat) (d : Dec) (m : List Bool), (processDecF lc fuel d m).length = m.length := by
  intro fuel
  induction fuel with
  | zero => intro d m; rfl
  | succ fuel ih =>
    intro d m
    obtain ⟨node, mtch, kp, children⟩ := d
    simp only [processDecF]
    split
    · rfl
    · split
      · rfl
      · have hfold := foldl_inv (fun (st : List Bool × Nat × Bool) => st.1.length = m.length)
          (processStep lc (min node.endLine (lc - 1)) (processDecF lc fuel))
          (fun st c hst => by
            show (processStep lc (min node.endLine (lc - 1)) (processDecF lc fuel) st c).1.length
              = m.length
            rw [processStep_length lc _ _ (fun c m => ih c m) st c]
            exact hst)
          (sortByStable (fun a b => decide (a.node.startLine ≤ b.node.startLine)) children)
          (m, min node.startLine (lc - 1), false) rfl
        split
        · rw [markRange_length]
          exact hfold
        · exact hfold

theorem createKeepMask_length (lineCount : Nat) (ds : List Dec) (h : lineCount ≠ 0) :
    (createKeepMask lineCount ds).length = lineCount := by
  unfold createKeepMask
  rw [if_neg h]
  have := foldl_inv (fun (m : List Bool) => m.length = lineCount)
    (fun m d => processDecF lineCount (decSize d) d m)
    (fun m d hm => by simpa [processDecF_length] using hm) ds
    (List.replicate lineCount false) (by simp)
  exact this

mutual

theorem dropByNode_length (dt : List Str) (lc : Nat) :
    ∀ (s : Sec) (m : List Bool), (dropByNode dt lc s m).length = m.length
  | .mk lvl ttl md sL eL cs => by
    intro m
    simp only [dropByNode]
    split
    · exact unmarkRange_length m sL (min eL (lc - 1))
    · exact dropByNodes_length dt lc cs m

theorem dropByNodes_length (dt : List Str) (lc : Nat) :
    ∀ (ss : List Sec) (m : List Bool), (dropByNodes dt lc ss m).length = m.length
  | [] => by intro m; rfl
  | s :: ss => by
    intro m
    simp only [dropByNodes]
    rw [dropByNodes_length dt lc ss, dropByNode_length dt lc s]

end

theorem findIdx?_bound {α : Type} (p : α → Bool) :
    ∀ (l : List α) (base i : Nat), List.findIdx? p l base = some i → base ≤ i ∧ i - base < l.length := by
  intro l
  induction l with
  | nil => intro base i h; rw [List.findIdx?_nil] at h; exact absurd h (by simp)
  | cons x xs ih =>
    intro base i h
    rw [List.findIdx?_cons] at h
    by_cases hp : p x = true
    · rw [if_pos hp] at h
      have hbi : base = i := by injection h
      subst hbi
      refine ⟨le_refl _, ?_⟩
      simp
    · rw [if_neg hp] at h
      obtain ⟨h1, h2⟩ := ih (base + 1) i h
      constructor
      · omega
      · simp only [List.length_cons]
        omega

theorem forceH1_getD {lines : List Str} {m : List Bool} {i : Nat}
    (hf : findFirstLevelOneHeadingIndex lines = some i) (hlen : i < m.length) :
    (forceH1 lines m).getD i false = true := by
  simp only [forceH1, hf]
  simp [List.getD, List.getElem?_set_self hlen]

theorem heading_not_meta {s : Str} (h : headingTestMd s = true) : metaTest s = false := by
  unfold headingTestMd at h
  unfold metaTest
  cases hdw : s.dropWhile jsWs with
  | nil => simp [hdw] at h
  | cons c rest =>
    rw [hdw] at h
    have hc : c = '#' ∨ c = '=' := by
      have := (Bool.and_eq_true _ _).mp h |>.1
      rcases (Bool.or_eq_true _ _).mp this with h1 | h1
      · left; exact eq_of_beq h1
      · right; exact eq_of_beq h1
    rcases hc with rfl | rfl <;> rfl

theorem heading_trim_ne {l : Str} (h : headingTestMd (trimL l) = true) :
    (trimL l).isEmpty = false := by
  cases ht : trimL l with
  | nil => rw [ht] at h; exact absurd h (by decide)
  | cons c rest => rfl

theorem forceH1_length (lines : List Str) (m : List Bool) :
    (forceH1 lines m).length = m.length := by
  unfold forceH1
  split
  · simp
  · rfl

theorem lstartsWith_extend {p : Str} : ∀ {s : Str} (z : Str),
    lstartsWith p s = true → lstartsWith p (s ++ z) = true := by
  induction p with
  | nil => intro s z h; rfl
  | cons c cs ih =>
    intro s z h
    cases s with
    | nil => exact absurd h (by simp [lstartsWith])
    | cons d ds =>
      rw [List.cons_append]
      simp only [lstartsWith, Bool.and_eq_true] at h ⊢
      exact ⟨h.1, ih z h.2⟩

theorem containsSeg_append_left {p : Str} : ∀ {x : Str} (z : Str),
    containsSeg p x = true → containsSeg p (x ++ z) = true := by
  intro x
  induction x with
  | nil =>
    intro z h
    have hs : lstartsWith p [] = true := by simpa [containsSeg] using h
    cases p with
    | nil => exact containsSeg_of_starts (by cases z <;> rfl)
    | cons c cs => simp [lstartsWith] at hs
  | cons c cs ih =>
    intro z h
    rw [List.cons_append]
    simp only [containsSeg, Bool.or_eq_true] at h ⊢
    rcases h with h1 | h2
    · exact Or.inl (by simpa [List.cons_append] using lstartsWith_extend z h1)
    · exact Or.inr (ih z h2)

theorem mem_joinSep_containsSeg (sep : Str) {l : Str} : ∀ {ls : List Str},
    l ∈ ls → containsSeg l (joinSep sep ls) = true := by
  intro ls
  induction ls with
  | nil => intro h; exact absurd h (List.not_mem_nil l)
  | cons x rest ih =>
    intro h
    cases rest with
    | nil =>
      have hx : l = x := by simpa using h
      subst hx
      exact containsSeg_of_starts (by simpa using lstartsWith_append l [])
    | cons y ys =>
      rcases List.mem_cons.mp h with rfl | hmem
      · show containsSeg l (l ++ sep ++ joinSep sep (y :: ys)) = true
        rw [List.append_assoc]
        exact containsSeg_of_starts (lstartsWith_append l _)
      · show containsSeg l (x ++ sep ++ joinSep sep (y :: ys)) = true
        rw [List.append_assoc]
        exact containsSeg_append_right x (containsSeg_append_right sep (ih hmem))

theorem mem_dropWhile_of_neg {α : Type} (p : α → Bool) {l : α} :
    ∀ {xs : List α}, l ∈ xs → p l = false → l ∈ xs.dropWhile p := by
  intro xs
  induction xs with
  | nil => intro h _; exact absurd h (List.not_mem_nil l)
  | cons x rest ih =>
    intro h hp
    rw [List.dropWhile_cons]
    split
    · rcases List.mem_cons.mp h with rfl | hmem
      · rename_i hpx; rw [hp] at hpx; exact absurd hpx (by simp)
      · exact ih hmem hp
    · exact h

theorem mem_removeTrailing {l : Str} {ls : List Str} (h : l ∈ ls)
    (hne : (trimL l).isEmpty = false) : l ∈ removeTrailingEmptyLines ls := by
  unfold removeTrailingEmptyLines
  have h1 : l ∈ ls.reverse := List.mem_reverse.mpr h
  have h2 := mem_dropWhile_of_neg (fun l => (trimL l).isEmpty) h1 hne
  exact List.mem_reverse.mpr h2

theorem mem_insertBlanksGo {l : Str} : ∀ {ls : List Str},
    l ∈ ls → l ∈ insertBlanksGo ls := by
  intro ls
  induction ls with
  | nil => intro h; exact absurd h (List.not_mem_nil l)
  | cons x rest ih =>
    intro h
    cases rest with
    | nil => simpa [insertBlanksGo] using h
    | cons y ys =>
      rw [insertBlanksGo]
      rcases List.mem_cons.mp h with rfl | hmem
      · exact List.mem_cons_self _ _
      · exact List.mem_cons_of_mem x (List.mem_append_right _ (ih hmem))

theorem mem_insertBlankLines {l : Str} {ls : List Str} (h : l ∈ ls) :
    l ∈ insertBlankLines ls := by
  unfold insertBlankLines
  split
  · exact h
  · exact mem_insertBlanksGo h

theorem containsSeg_finalize {l : Str} {ls : List Str} (h : l ∈ ls) (b : Bool) :
    containsSeg l (finalizeContent ls b) = true := by
  unfold finalizeContent
  have hne : ls.isEmpty = false := by
    cases ls with
    | nil => exact absurd h (List.not_mem_nil l)
    | cons x rest => rfl
  rw [if_neg (by simp [hne])]
  exact containsSeg_append_left _ (mem_joinSep_containsSeg _ h)

theorem assembleGo_mem (anchors seeAlso : List (Nat × Str)) (inc : Bool) (mask : List Bool) :
    ∀ (ls : List Str) (start j : Nat), j < ls.length →
      mask.getD (start + j) false = true →
      headingTestMd (trimL (ls.getD j [])) = true →
      ls.getD j [] ∈ (assembleGo anchors seeAlso inc mask start ls).1 ∧
      ls.getD j [] ∈ (assembleGo anchors seeAlso inc mask start ls).2 := by
  intro ls
  induction ls with
  | nil => intro start j hj _ _; exact absurd hj (by simp)
  | cons l rest ih =>
    intro start j hj hm hh
    cases j with
    | zero =>
      have hm0 : mask[start]?.getD false = true := by simpa [List.getD] using hm
      have hh0 : headingTestMd (trimL l) = true := by simpa using hh
      have hmt : metaTest (trimL l) = false := heading_not_meta hh0
      simp [assembleGo, hm0, hmt, hh0]
    | succ j =>
      have hj2 : j < rest.length := by simpa using Nat.lt_of_succ_lt_succ hj
      have hm2 : mask.getD (start + 1 + j) false = true := by
        have harith : start + (j + 1) = start + 1 + j := by omega
        rwa [harith] at hm
      have hh2 : headingTestMd (trimL (rest.getD j [])) = true := by simpa using hh
      obtain ⟨ih1, ih2⟩ := ih (start + 1) j hj2 hm2 hh2
      have ih1b : rest[j]?.getD [] ∈ (assembleGo anchors seeAlso inc mask (start + 1) rest).1 := by
        simpa [List.getD] using ih1
      have ih2b : rest[j]?.getD [] ∈ (assembleGo anchors seeAlso inc mask (start + 1) rest).2 := by
        simpa [List.getD] using ih2
      have hg : (l :: rest).getD (j + 1) [] = rest.getD j [] := by simp [List.getD]
      rw [hg]
      simp only [assembleGo]
      constructor
      · split
        · exact ih1
        · split
          · exact ih1
          · split
            · simp [ih1b]
            · split
              · simp [ih1b]
              · simp [ih1b]
      · split
        · exact ih2
        · split
          · exact ih2
          · split
            · simp [ih2b]
            · split
              · simp [ih2b]
              · exact ih2

theorem survive_filter_core (anchors seeAlso : List (Nat × Str)) (inc : Bool)
    (mask : List Bool) (L : List Str) (i : Nat) (hi : i < L.length)
    (hm : mask.getD i false = true)
    (hh : headingTestMd (trimL (L.getD i [])) = true) (b : Bool) :
    containsSeg (L.getD i [])
      (finalizeContent (removeTrailingEmptyLines
        (assembleGo anchors seeAlso inc mask 0 L).1) b) = true ∧
    containsSeg (L.getD i [])
      (finalizeContent (insertBlankLines (removeTrailingEmptyLines
        (assembleGo anchors seeAlso inc mask 0 L).2)) b) = true := by
  obtain ⟨h1, h2⟩ := assembleGo_mem anchors seeAlso inc mask L 0 i hi (by simpa using hm) hh
  have hne : (trimL (L.getD i [])).isEmpty = false := heading_trim_ne hh
  exact ⟨containsSeg_finalize (mem_removeTrailing h1 hne) b,
    containsSeg_finalize (mem_insertBlankLines (mem_removeTrailing h2 hne)) b⟩

/-- Modelled from the spec's wording of C4: a "level-1 heading line" is a
line whose right-trimmed form is a level-1 heading with a non-empty title
(the parser's per-line normalization and title test). -/
def specLevel1Heading (line : Str) : Bool :=
  match parseHeadingMd (trimEndL line) with
  | some (1, t) => !(trimL t).isEmpty
  | _ => false

/-- The C4 counterexample document: a titleless `# ` marker line before the
real level-1 heading. -/
def c4doc : Str :=
  ("# \n//🏷\x7b\"labels\":[\"x\"]\x7d\n# Real\nbody").data

/-- C4 counterexample: the document's first level-1 heading line (spec
sense: a level-1 heading with a title) is `# Real` at index 2, yet with a
selection matching no section the filter forces only the titleless `# `
marker line at index 0 back into the mask, so `# Real` appears in neither
output and `blankContent` is empty. -/
theorem c4_counterexample :
    ((splitLines c4doc).findIdx? specLevel1Heading = some 2 ∧
     (splitLines c4doc).getD 2 [] = ("# Real").data) ∧
    containsSeg (("# Real").data)
      (filterPartContent c4doc { includeLabels := [("y").data] }).templateContent = false ∧
    (filterPartContent c4doc { includeLabels := [("y").data] }).blankContent = [] := by
  refine ⟨⟨?_, ?_⟩, ?_, ?_⟩ <;> decide

/-- C4, amended as the counterexample forces: the line that survives every
selection and drop-title set is the one found by the *loose* level-1 marker
scan (`findFirstLevelOneHeadingIndex`), and it is guaranteed to appear in
both `templateContent` and `blankContent` provided that line is a genuine
heading line (the loose scan can instead latch onto a titleless `# ` or
`= ` marker, which reaches neither output unchanged as a heading). -/
theorem c4_first_h1_survives (rawContent : Str) (options : FilterOptions) (i : Nat)
    (hf : findFirstLevelOneHeadingIndex (splitLines rawContent) = some i)
    (hh : headingTestMd (trimL ((splitLines rawContent).getD i [])) = true) :
    containsSeg ((splitLines rawContent).getD i [])
      (filterPartContent rawContent options).templateContent = true ∧
    containsSeg ((splitLines rawContent).getD i [])
      (filterPartContent rawContent options).blankContent = true := by
  have hb := findIdx?_bound looseH1 (splitLines rawContent) 0 i
    (by simpa [findFirstLevelOneHeadingIndex] using hf)
  have hi : i < (splitLines rawContent).length := by omega
  have hn0 : (splitLines rawContent).length ≠ 0 := by omega
  unfold filterPartContent filterPartContentV
  by_cases hIL : (normalizeLabels options.includeLabels).isEmpty = true
  · by_cases hDT : ((options.dropTitles.map (fun v => lowerL (trimL v))).filter
        (fun v => !v.isEmpty)).isEmpty = true
    · simp only [hIL, hDT, Bool.not_true, Bool.false_eq_true, if_false]
      exact survive_filter_core _ _ _ _ _ i hi (replicate_getD_true _ i hi) hh _
    · rw [Bool.not_eq_true] at hDT
      simp only [hIL, hDT, Bool.not_true, Bool.not_false, Bool.false_eq_true, if_false,
        eq_self_iff_true, if_true]
      refine survive_filter_core _ _ _ _ _ i hi ?_ hh _
      exact forceH1_getD hf (by
        rw [dropByNodes_length]
        simpa using hi)
  · rw [Bool.not_eq_true] at hIL
    by_cases hDT : ((options.dropTitles.map (fun v => lowerL (trimL v))).filter
        (fun v => !v.isEmpty)).isEmpty = true
    · simp only [hIL, hDT, Bool.not_true, Bool.not_false, Bool.false_eq_true, if_false,
        eq_self_iff_true, if_true]
      refine survive_filter_core _ _ _ _ _ i hi ?_ hh _
      exact forceH1_getD hf (by
        rw [createKeepMask_length _ _ hn0]
        exact hi)
    · rw [Bool.not_eq_true] at hDT
      simp only [hIL, hDT, Bool.not_true, Bool.not_false, Bool.false_eq_true, if_false,
        eq_self_iff_true, if_true]
      refine survive_filter_core _ _ _ _ _ i hi ?_ hh _
      exact forceH1_getD hf (by
        rw [dropByNodes_length, forceH1_length, createKeepMask_length _ _ hn0]
        exact hi)

/-- Witness for the amended C4 on a concrete document with a non-matching
selection and a drop-title set. -/
theorem c4_first_h1_survives_witness :
    findFirstLevelOneHeadingIndex (splitLines (("# Title\nbody").data)) = some 0 ∧
    headingTestMd (trimL ((splitLines (("# Title\nbody").data)).getD 0 [])) = true ∧
    (containsSeg ((splitLines (("# Title\nbody").data)).getD 0 [])
      (filterPartContent (("# Title\nbody").data)
        { includeLabels := [("x").data], dropTitles := [("z").data] }).templateContent = true ∧
     containsSeg ((splitLines (("# Title\nbody").data)).getD 0 [])
      (filterPartContent (("# Title\nbody").data)
        { includeLabels := [("x").data], dropTitles := [("z").data] }).blankContent = true) :=
  ⟨by decide, by decide,
    c4_first_h1_survives (("# Title\nbody").data)
      { includeLabels := [("x").data], dropTitles := [("z").data] } 0
      (by decide) (by decide)⟩

/-! ## C10: line shapes of the blank output -/

/-- No newline character in the string. -/
def nlFreeB (s : Str) : Bool := s.all (fun c => !(c == '\n'))

/-- A link-index entry whose title and file are newline-free. -/
def entrySafe : LinkEntry → Bool
  | .strE t => nlFreeB t
  | .objE t f => nlFreeB t && (match f with | some x => nlFreeB x | none => true)

/-- Section metadata whose trimmed id and link targets are newline-free. -/
def metaSafe : Option Meta → Bool
  | none => true
  | some m =>
    (match m.id with | some i => nlFreeB (trimL i) | none => true) &&
    m.linkTo.all nlFreeB

mutual

/-- All ids and link targets in this section's subtree are newline-free. -/
def secSafe1 : Sec → Bool
  | .mk _ _ md _ _ cs => metaSafe md && secSafeL cs

/-- Forest version of [secSafe1]. -/
def secSafeL : List Sec → Bool
  | [] => true
  | c :: cs => secSafe1 c && secSafeL cs

end

/-- The shape of an inserted anchor line: `[#` ... `]`, newline-free. -/
def anchorShapeB (s : Str) : Bool :=
  lstartsWith (("[#").data) s && lendsWith (("]").data) s && nlFreeB s

/-- The shape of an inserted See-also paragraph: starts `TIP: See also`,
ends with a period, newline-free. -/
def tipShapeB (s : Str) : Bool :=
  lstartsWith (("TIP: See also").data) s && lendsWith ((".").data) s && nlFreeB s

theorem lendsWith_last (c : Char) (xs : Str) : lendsWith [c] (xs ++ [c]) = true := by
  simp [lendsWith, lstartsWith, List.reverse_append]

theorem nlFreeB_append {x y : Str} (hx : nlFreeB x = true) (hy : nlFreeB y = true) :
    nlFreeB (x ++ y) = true := by
  simp only [nlFreeB, List.all_append, Bool.and_eq_true]
  exact ⟨hx, hy⟩

theorem renderRef_safe (cf : Option Str) {linkId : Str} (hid : nlFreeB linkId = true) :
    ∀ {e : LinkEntry}, entrySafe e = true → nlFreeB (renderRef cf linkId e) = true := by
  intro e he
  cases e with
  | strE t =>
    simp only [entrySafe] at he
    exact nlFreeB_append (x := ['<', '<']) (by decide)
      (nlFreeB_append hid (nlFreeB_append (x := [',']) (by decide)
        (nlFreeB_append he (by decide))))
  | objE t f =>
    simp only [entrySafe, Bool.and_eq_true] at he
    simp only [renderRef]
    split
    · have hf : nlFreeB (f.getD []) = true := by
        cases f with
        | none => rfl
        | some fv => simpa using he.2
      exact nlFreeB_append (nlFreeB_append (by decide) hf)
        (nlFreeB_append (x := ['#']) (by decide)
          (nlFreeB_append hid (nlFreeB_append (x := ['[']) (by decide)
            (nlFreeB_append he.1 (by decide)))))
    · exact nlFreeB_append (x := ['<', '<']) (by decide)
        (nlFreeB_append hid (nlFreeB_append (x := [',']) (by decide)
          (nlFreeB_append he.1 (by decide))))

theorem buildRefs_safe {links : List Str} {idx : List (Str × LinkEntry)} (cf : Option Str)
    (hlinks : links.all nlFreeB = true)
    (hidx : idx.all (fun kv => entrySafe kv.2) = true) :
    (buildRefs links idx cf).all nlFreeB = true := by
  rw [buildRefs, buildRefs_eq_filterMap, List.nil_append]
  rw [List.all_eq_true]
  intro r hr
  obtain ⟨linkId, hmem, hmap⟩ := List.mem_filterMap.mp hr
  cases hl : List.lookup linkId idx with
  | none => rw [hl] at hmap; exact absurd hmap (by simp)
  | some e =>
    rw [hl] at hmap
    have hre : renderRef cf linkId e = r := by
      have h2 : entryTruthy e = true ∧ renderRef cf linkId e = r := by simpa using hmap
      exact h2.2
    rw [← hre]
    have hid : nlFreeB linkId = true := List.all_eq_true.mp hlinks _ hmem
    have hes : entrySafe e = true := by
      have := List.all_eq_true.mp hidx _ (lookup_mem hl)
      simpa using this
    exact renderRef_safe cf hid hes

theorem nlFreeB_joinSep {sep : Str} (hsep : nlFreeB sep = true) :
    ∀ {ls : List Str}, ls.all nlFreeB = true → nlFreeB (joinSep sep ls) = true := by
  intro ls
  induction ls with
  | nil => intro _; rfl
  | cons x rest ih =>
    intro h
    simp only [List.all_cons, Bool.and_eq_true] at h
    cases rest with
    | nil => exact h.1
    | cons y ys =>
      rw [joinSep]
      exact nlFreeB_append (nlFreeB_append h.1 hsep) (ih h.2)

theorem anchorStr_shape {id : Str} (hid : nlFreeB id = true) :
    anchorShapeB (anchorStr id) = true := by
  simp only [anchorShapeB, anchorStr, Bool.and_eq_true]
  refine ⟨⟨?_, ?_⟩, ?_⟩
  · simp [lstartsWith]
  · have := lendsWith_last ']' ('[' :: '#' :: id)
    simpa using this
  · have : nlFreeB ('[' :: '#' :: (id ++ [ ']' ])) =
        nlFreeB (('[' :: '#' :: id) ++ [ ']' ]) := by simp
    rw [this]
    exact nlFreeB_append (by simpa [nlFreeB] using hid) (by decide)

theorem tipStr_shape {refs : List Str} (hrefs : refs.all nlFreeB = true) :
    tipShapeB (tipStr (("See also").data) refs) = true := by
  simp only [tipShapeB, tipStr, Bool.and_eq_true]
  refine ⟨⟨?_, ?_⟩, ?_⟩
  · simp [lstartsWith]
  · have h1 : (("TIP: ").data) ++ (("See also").data) ++
        (' ' :: (joinSep ((", ").data) refs ++ [ '.' ])) =
        ((("TIP: ").data) ++ (("See also").data) ++
          (' ' :: joinSep ((", ").data) refs)) ++ [ '.' ] := by
      simp
    rw [h1]
    exact lendsWith_last '.' _
  · refine nlFreeB_append (nlFreeB_append (by decide) (by decide)) ?_
    exact nlFreeB_append (x := [' ']) (by decide)
      (nlFreeB_append (nlFreeB_joinSep (by decide) hrefs) (by decide))

mutual

theorem visitIns_safe (lines : List Str) (keepMask : List Bool)
    (idx : List (Str × LinkEntry)) (hasLinks : Bool) (cf : Option Str)
    (hidx : idx.all (fun kv => entrySafe kv.2) = true) :
    ∀ (s : Sec), secSafe1 s = true →
      ∀ (acc : List (Nat × Str) × List (Nat × Str)),
      (∀ e ∈ acc.1, anchorShapeB e.2 = true) →
      (∀ e ∈ acc.2, tipShapeB e.2 = true) →
      (∀ e ∈ (visitIns (("See also").data) lines keepMask idx hasLinks cf s acc).1,
        anchorShapeB e.2 = true) ∧
      (∀ e ∈ (visitIns (("See also").data) lines keepMask idx hasLinks cf s acc).2,
        tipShapeB e.2 = true)
  | .mk lvl t md sL eL cs => by
    intro hsafe acc hA hS
    obtain ⟨anch, see⟩ := acc
    simp only [secSafe1, Bool.and_eq_true] at hsafe
    simp only [visitIns]
    refine visitInsL_safe lines keepMask idx hasLinks cf hidx cs hsafe.2 _ ?_ ?_
    · by_cases hkeep :
        keepMask.getD (resolveHeadingLine lines (Sec.mk lvl t md sL eL cs)) false = true
      · simp only [hkeep, if_true]
        cases md with
        | none => simpa using hA
        | some m =>
          have hms := hsafe.1
          simp only [metaSafe, Bool.and_eq_true] at hms
          cases hid : m.id with
          | none =>
            simp only [Option.some_bind, hid, Option.map_none']
            simpa using hA
          | some i =>
            simp only [Option.some_bind, hid, Option.map_some']
            by_cases hie : (trimL i).isEmpty = true
            · simp only [hie, Bool.not_true, Bool.false_eq_true, if_false]
              simpa using hA
            · rw [Bool.not_eq_true] at hie
              simp only [hie, Bool.not_false, if_true]
              intro e he
              rcases List.mem_cons.mp he with rfl | he2
              · have hni : nlFreeB (trimL i) = true := by
                  have := hms.1
                  rw [hid] at this
                  exact this
                exact anchorStr_shape hni
              · exact hA e (by simpa using he2)
      · rw [Bool.not_eq_true] at hkeep
        simp only [hkeep, Bool.false_eq_true, if_false]
        simpa using hA
    · by_cases hkeep :
        keepMask.getD (resolveHeadingLine lines (Sec.mk lvl t md sL eL cs)) false = true
      · simp only [hkeep, if_true]
        by_cases hlk : hasLinks = true
        · have hlinks : ((md.map Meta.linkTo).getD []).all nlFreeB = true := by
            cases md with
            | none => rfl
            | some m =>
              have hms := hsafe.1
              simp only [metaSafe, Bool.and_eq_true] at hms
              simpa using hms.2
          by_cases hle : ((md.map Meta.linkTo).getD []).isEmpty = true
          · simp only [hlk, hle, Bool.not_true, Bool.false_eq_true, if_false, if_true]
            simpa using hS
          · rw [Bool.not_eq_true] at hle
            by_cases hre :
                (buildRefs ((md.map Meta.linkTo).getD []) idx cf).isEmpty = true
            · simp only [hlk, hle, hre, Bool.not_true, Bool.not_false, Bool.false_eq_true,
                if_false, if_true]
              simpa using hS
            · rw [Bool.not_eq_true] at hre
              simp only [hlk, hle, hre, Bool.not_false, if_true]
              intro e he
              rcases List.mem_cons.mp he with rfl | he2
              · exact tipStr_shape (buildRefs_safe cf hlinks hidx)
              · exact hS e (by simpa using he2)
        · rw [Bool.not_eq_true] at hlk
          simp only [hlk, Bool.false_eq_true, if_false]
          simpa using hS
      · rw [Bool.not_eq_true] at hkeep
        simp only [hkeep, Bool.false_eq_true, if_false]
        simpa using hS

theorem visitInsL_safe (lines : List Str) (keepMask : List Bool)
    (idx : List (Str × LinkEntry)) (hasLinks : Bool) (cf : Option Str)
    (hidx : idx.all (fun kv => entrySafe kv.2) = true) :
    ∀ (ss : List Sec), secSafeL ss = true →
      ∀ (acc : List (Nat × Str) × List (Nat × Str)),
      (∀ e ∈ acc.1, anchorShapeB e.2 = true) →
      (∀ e ∈ acc.2, tipShapeB e.2 = true) →
      (∀ e ∈ (visitInsL (("See also").data) lines keepMask idx hasLinks cf ss acc).1,
        anchorShapeB e.2 = true) ∧
      (∀ e ∈ (visitInsL (("See also").data) lines keepMask idx hasLinks cf ss acc).2,
        tipShapeB e.2 = true)
  | [] => by
    intro _ acc hA hS
    simp only [visitInsL]
    exact ⟨hA, hS⟩
  | s :: ss => by
    intro hsafe acc hA hS
    simp only [secSafeL, Bool.and_eq_true] at hsafe
    simp only [visitInsL]
    have h1 := visitIns_safe lines keepMask idx hasLinks cf hidx s hsafe.1 acc hA hS
    exact visitInsL_safe lines keepMask idx hasLinks cf hidx ss hsafe.2 _ h1.1 h1.2

end

/-- Containment of each child range in `[sL, eL]` plus the consecutive
disjointness chain. -/
def kidsOk (sL eL : Nat) : List Sec → Bool
  | [] => true
  | [c] => decide (sL ≤ c.startLine) && decide (c.endLine ≤ eL)
  | c :: d :: cs =>
    decide (sL ≤ c.startLine) && decide (c.endLine ≤ eL) &&
    decide (c.endLine < d.startLine) && kidsOk sL eL (d :: cs)

mutual

/-- Modelled from the spec's invariant wording of C9: a section's range is
well-formed, its children's ranges are contained in it and consecutive
children are disjoint and ordered, recursively. -/
def secWf : Sec → Bool
  | .mk _ _ _ sL eL cs => decide (sL ≤ eL) && kidsOk sL eL cs && secWfL cs

/-- Forest version of [secWf]. -/
def secWfL : List Sec → Bool
  | [] => true
  | c :: cs => secWf c && secWfL cs

end

/-- The consecutive disjointness chain alone. -/
def chainB : List Sec → Bool
  | [] => true
  | [_] => true
  | c :: d :: cs => decide (c.endLine < d.startLine) && chainB (d :: cs)

/-- Closed children of an open frame: started at or after the frame's
heading, ended before `ub`, consecutive ones disjoint. -/
def doneOk (lb ub : Nat) : List Sec → Bool
  | [] => true
  | [c] => decide (lb ≤ c.startLine) && decide (c.endLine < ub)
  | c :: d :: cs =>
    decide (lb ≤ c.startLine) && decide (c.endLine < ub) &&
    decide (c.endLine < d.startLine) && doneOk lb ub (d :: cs)

/-- Closed roots: all ended before `ub`, consecutive ones disjoint. -/
def rootsOk (ub : Nat) : List Sec → Bool
  | [] => true
  | [c] => decide (c.endLine < ub)
  | c :: d :: cs =>
    decide (c.endLine < ub) && decide (c.endLine < d.startLine) && rootsOk ub (d :: cs)

/-- Invariant of the open-frame stack (head = innermost frame): every frame
starts below the bound of the frame above it (`ub` for the innermost),
closed children are well-formed, contained and chained, and at the bottom
the closed roots end before the outermost frame's start. -/
def stackOk (roots : List Sec) : Nat → List Frame → Bool
  | ub, [] => rootsOk ub roots && secWfL roots
  | ub, f :: rest =>
    decide (f.startLine < ub) && doneOk f.startLine ub f.done && secWfL f.done &&
    stackOk roots f.startLine rest

/-- Descendant relation on section nodes (reflexive-transitive closure of
the child relation). -/
inductive Desc : Sec → Sec → Prop where
  | refl (s : Sec) : Desc s s
  | step {b c a : Sec} : Desc b c → c ∈ a.children → Desc b a

theorem doneOk_mem {lb ub : Nat} : ∀ {cs : List Sec}, doneOk lb ub cs = true →
    ∀ c ∈ cs, lb ≤ c.startLine ∧ c.endLine < ub := by
  intro cs
  induction cs with
  | nil => intro _ c hc; exact absurd hc (List.not_mem_nil c)
  | cons x rest ih =>
    intro h c hc
    cases rest with
    | nil =>
      simp only [doneOk, Bool.and_eq_true, decide_eq_true_eq] at h
      rcases List.mem_cons.mp hc with rfl | hc2
      · exact h
      · exact absurd hc2 (List.not_mem_nil c)
    | cons d ds =>
      simp only [doneOk, Bool.and_eq_true, decide_eq_true_eq] at h
      rcases List.mem_cons.mp hc with rfl | hc2
      · exact ⟨h.1.1.1, h.1.1.2⟩
      · exact ih h.2 c hc2

theorem doneOk_mono {lb ub ub' : Nat} (hu : ub ≤ ub') : ∀ {cs : List Sec},
    doneOk lb ub cs = true → doneOk lb ub' cs = true := by
  intro cs
  induction cs with
  | nil => intro _; rfl
  | cons x rest ih =>
    intro h
    cases rest with
    | nil =>
      simp only [doneOk, Bool.and_eq_true, decide_eq_true_eq] at h ⊢
      exact ⟨h.1, lt_of_lt_of_le h.2 hu⟩
    | cons d ds =>
      simp only [doneOk, Bool.and_eq_true, decide_eq_true_eq] at h ⊢
      exact ⟨⟨⟨h.1.1.1, lt_of_lt_of_le h.1.1.2 hu⟩, h.1.2⟩, ih h.2⟩

theorem rootsOk_mono {ub ub' : Nat} (hu : ub ≤ ub') : ∀ {rs : List Sec},
    rootsOk ub rs = true → rootsOk ub' rs = true := by
  intro rs
  induction rs with
  | nil => intro _; rfl
  | cons x rest ih =>
    intro h
    cases rest with
    | nil =>
      simp only [rootsOk, decide_eq_true_eq] at h ⊢
      exact lt_of_lt_of_le h hu
    | cons d ds =>
      simp only [rootsOk, Bool.and_eq_true, decide_eq_true_eq] at h ⊢
      exact ⟨⟨lt_of_lt_of_le h.1.1 hu, h.1.2⟩, ih h.2⟩

theorem stackOk_mono {roots : List Sec} {ub ub' : Nat} (hu : ub ≤ ub') :
    ∀ {stack : List Frame}, stackOk roots ub stack = true →
      stackOk roots ub' stack = true := by
  intro stack h
  cases stack with
  | nil =>
    simp only [stackOk, Bool.and_eq_true] at h ⊢
    exact ⟨rootsOk_mono hu h.1, h.2⟩
  | cons f rest =>
    simp only [stackOk, Bool.and_eq_true, decide_eq_true_eq] at h ⊢
    exact ⟨⟨⟨lt_of_lt_of_le h.1.1.1 hu, doneOk_mono hu h.1.1.2⟩, h.1.2⟩, h.2⟩

theorem doneOk_push {lb ub ub' : Nat} {s : Sec} (hus : ub ≤ s.startLine)
    (hlb : lb ≤ s.startLine) (hse : s.endLine < ub') (huu : ub ≤ ub') :
    ∀ {cs : List Sec}, doneOk lb ub cs = true → doneOk lb ub' (cs ++ [s]) = true := by
  intro cs
  induction cs with
  | nil =>
    intro _
    simp only [List.nil_append, doneOk, Bool.and_eq_true, decide_eq_true_eq]
    exact ⟨hlb, hse⟩
  | cons x rest ih =>
    intro h
    cases rest with
    | nil =>
      simp only [doneOk, Bool.and_eq_true, decide_eq_true_eq] at h
      simp only [List.cons_append, List.nil_append, doneOk, Bool.and_eq_true,
        decide_eq_true_eq]
      exact ⟨⟨⟨h.1, lt_of_lt_of_le h.2 huu⟩, lt_of_lt_of_le h.2 hus⟩, hlb, hse⟩
    | cons d ds =>
      simp only [doneOk, Bool.and_eq_true, decide_eq_true_eq] at h
      have hrec := ih h.2
      simp only [List.cons_append, doneOk, Bool.and_eq_true, decide_eq_true_eq] at hrec ⊢
      exact ⟨⟨⟨h.1.1.1, lt_of_lt_of_le h.1.1.2 huu⟩, h.1.2⟩, hrec⟩

theorem rootsOk_push {ub ub' : Nat} {s : Sec} (hus : ub ≤ s.startLine)
    (hse : s.endLine < ub') (huu : ub ≤ ub') :
    ∀ {rs : List Sec}, rootsOk ub rs = true → rootsOk ub' (rs ++ [s]) = true := by
  intro rs
  induction rs with
  | nil =>
    intro _
    simp only [List.nil_append, rootsOk, decide_eq_true_eq]
    exact hse
  | cons x rest ih =>
    intro h
    cases rest with
    | nil =>
      simp only [rootsOk, decide_eq_true_eq] at h
      simp only [List.cons_append, List.nil_append, rootsOk, Bool.and_eq_true,
        decide_eq_true_eq]
      exact ⟨⟨lt_of_lt_of_le h huu, lt_of_lt_of_le h hus⟩, hse⟩
    | cons d ds =>
      simp only [rootsOk, Bool.and_eq_true, decide_eq_true_eq] at h
      have hrec := ih h.2
      simp only [List.cons_append, rootsOk, Bool.and_eq_true, decide_eq_true_eq] at hrec ⊢
      exact ⟨⟨lt_of_lt_of_le h.1.1 huu, h.1.2⟩, hrec⟩

theorem secWfL_append {cs : List Sec} {s : Sec} (h : secWfL cs = true)
    (hs : secWf s = true) : secWfL (cs ++ [s]) = true := by
  induction cs with
  | nil => simpa [secWfL] using hs
  | cons x rest ih =>
    simp only [secWfL, Bool.and_eq_true] at h
    simp only [List.cons_append, secWfL, Bool.and_eq_true]
    exact ⟨h.1, ih h.2⟩

theorem secWfL_mem : ∀ {cs : List Sec}, secWfL cs = true → ∀ c ∈ cs, secWf c = true := by
  intro cs
  induction cs with
  | nil => intro _ c hc; exact absurd hc (List.not_mem_nil c)
  | cons x rest ih =>
    intro h c hc
    simp only [secWfL, Bool.and_eq_true] at h
    rcases List.mem_cons.mp hc with rfl | hc2
    · exact h.1
    · exact ih h.2 c hc2

theorem kidsOk_of_doneOk {lb ub : Nat} : ∀ {cs : List Sec},
    doneOk lb ub cs = true → kidsOk lb (ub - 1) cs = true := by
  intro cs
  induction cs with
  | nil => intro _; rfl
  | cons x rest ih =>
    intro h
    cases rest with
    | nil =>
      simp only [doneOk, Bool.and_eq_true, decide_eq_true_eq] at h
      simp only [kidsOk, Bool.and_eq_true, decide_eq_true_eq]
      exact ⟨h.1, by omega⟩
    | cons d ds =>
      simp only [doneOk, Bool.and_eq_true, decide_eq_true_eq] at h
      simp only [kidsOk, Bool.and_eq_true, decide_eq_true_eq]
      exact ⟨⟨⟨h.1.1.1, by omega⟩, h.1.2⟩, ih h.2⟩

theorem chainB_of_rootsOk {ub : Nat} : ∀ {rs : List Sec},
    rootsOk ub rs = true → chainB rs = true := by
  intro rs
  induction rs with
  | nil => intro _; rfl
  | cons x rest ih =>
    intro h
    cases rest with
    | nil => rfl
    | cons d ds =>
      simp only [rootsOk, Bool.and_eq_true, decide_eq_true_eq] at h
      simp only [chainB, Bool.and_eq_true, decide_eq_true_eq]
      exact ⟨h.1.2, ih h.2⟩

theorem kidsOk_mem {sL eL : Nat} : ∀ {cs : List Sec}, kidsOk sL eL cs = true →
    ∀ c ∈ cs, sL ≤ c.startLine ∧ c.endLine ≤ eL := by
  intro cs
  induction cs with
  | nil => intro _ c hc; exact absurd hc (List.not_mem_nil c)
  | cons x rest ih =>
    intro h c hc
    cases rest with
    | nil =>
      simp only [kidsOk, Bool.and_eq_true, decide_eq_true_eq] at h
      rcases List.mem_cons.mp hc with rfl | hc2
      · exact h
      · exact absurd hc2 (List.not_mem_nil c)
    | cons d ds =>
      simp only [kidsOk, Bool.and_eq_true, decide_eq_true_eq] at h
      rcases List.mem_cons.mp hc with rfl | hc2
      · exact ⟨h.1.1.1, h.1.1.2⟩
      · exact ih h.2 c hc2

theorem closeFrame_wf {f : Frame} {e : Nat} (h1 : f.startLine ≤ e)
    (h2 : kidsOk f.startLine e f.done = true) (h3 : secWfL f.done = true) :
    secWf (closeFrame f e) = true := by
  simp only [closeFrame, secWf, Bool.and_eq_true, decide_eq_true_eq]
  exact ⟨⟨h1, h2⟩, h3⟩

theorem popGEF_ok (lvl ns : Nat) :
    ∀ (n : Nat) (stack : List Frame) (roots : List Sec), stack.length = n →
      stackOk roots ns stack = true →
      stackOk (popGEF lvl ns n stack roots).2 ns (popGEF lvl ns n stack roots).1 = true := by
  intro n
  induction n with
  | zero =>
    intro stack roots hlen h
    cases stack with
    | nil => simpa [popGEF] using h
    | cons f rest => simp at hlen
  | succ n ih =>
    intro stack roots hlen h
    cases stack with
    | nil => simp at hlen
    | cons f rest =>
      simp only [stackOk, Bool.and_eq_true, decide_eq_true_eq] at h
      obtain ⟨⟨⟨hf1, hf2⟩, hf3⟩, hrest⟩ := h
      have hns1 : 1 ≤ ns := by omega
      have hmax : max f.startLine (ns - 1) = ns - 1 := by omega
      have hwfs : secWf (closeFrame f (max f.startLine (ns - 1))) = true := by
        rw [hmax]
        exact closeFrame_wf (by omega) (kidsOk_of_doneOk hf2) hf3
      have hstart : (closeFrame f (max f.startLine (ns - 1))).startLine = f.startLine := rfl
      have hend : (closeFrame f (max f.startLine (ns - 1))).endLine = ns - 1 := by
        rw [hmax]; rfl
      by_cases hlv : lvl ≤ f.level
      · cases rest with
        | nil =>
          simp only [popGEF, if_pos hlv]
          simp only [stackOk, Bool.and_eq_true] at hrest ⊢
          constructor
          · exact rootsOk_push (by rw [hstart]) (by rw [hend]; omega) (by omega) hrest.1
          · exact secWfL_append hrest.2 hwfs
        | cons g grest =>
          simp only [popGEF, if_pos hlv]
          have hlen2 : ({ g with done :=
              g.done ++ [closeFrame f (max f.startLine (ns - 1))] } :: grest).length = n := by
            simpa using hlen
          refine ih _ _ hlen2 ?_
          simp only [stackOk, Bool.and_eq_true, decide_eq_true_eq] at hrest ⊢
          obtain ⟨⟨⟨hg1, hg2⟩, hg3⟩, hgrest⟩ := hrest
          refine ⟨⟨⟨by omega, ?_⟩, ?_⟩, hgrest⟩
          · exact doneOk_push (by rw [hstart]) (by rw [hstart]; omega)
              (by rw [hend]; omega) (by omega) hg2
          · exact secWfL_append hg3 hwfs
      · simp only [popGEF, if_neg hlv]
        simp only [stackOk, Bool.and_eq_true, decide_eq_true_eq]
        exact ⟨⟨⟨hf1, hf2⟩, hf3⟩, hrest⟩

theorem closeAllF_ok (lastL : Nat) :
    ∀ (n : Nat) (stack : List Frame) (roots : List Sec), stack.length = n →
      stackOk roots (lastL + 1) stack = true →
      secWfL (closeAllF lastL n stack roots) = true ∧
      rootsOk (lastL + 1) (closeAllF lastL n stack roots) = true := by
  intro n
  induction n with
  | zero =>
    intro stack roots hlen h
    cases stack with
    | nil =>
      simp only [stackOk, Bool.and_eq_true] at h
      exact ⟨h.2, h.1⟩
    | cons f rest => simp at hlen
  | succ n ih =>
    intro stack roots hlen h
    cases stack with
    | nil => simp at hlen
    | cons f rest =>
      simp only [stackOk, Bool.and_eq_true, decide_eq_true_eq] at h
      obtain ⟨⟨⟨hf1, hf2⟩, hf3⟩, hrest⟩ := h
      have hwfs : secWf (closeFrame f lastL) = true := by
        refine closeFrame_wf (by omega) ?_ hf3
        have := kidsOk_of_doneOk hf2
        simpa using this
      have hstart : (closeFrame f lastL).startLine = f.startLine := rfl
      have hend : (closeFrame f lastL).endLine = lastL := rfl
      cases rest with
      | nil =>
        simp only [closeAllF]
        simp only [stackOk, Bool.and_eq_true] at hrest
        constructor
        · exact secWfL_append hrest.2 hwfs
        · exact rootsOk_push (by rw [hstart]) (by rw [hend]; omega) (by omega) hrest.1
      | cons g grest =>
        simp only [closeAllF]
        have hlen2 : ({ g with done := g.done ++ [closeFrame f lastL] } :: grest).length
            = n := by simpa using hlen
        refine ih _ _ hlen2 ?_
        simp only [stackOk, Bool.and_eq_true, decide_eq_true_eq] at hrest ⊢
        obtain ⟨⟨⟨hg1, hg2⟩, hg3⟩, hgrest⟩ := hrest
        refine ⟨⟨⟨by omega, ?_⟩, ?_⟩, hgrest⟩
        · exact doneOk_push (by rw [hstart]) (by rw [hstart]; omega)
            (by rw [hend]; omega) (by omega) hg2
        · exact secWfL_append hg3 hwfs

/-- The parser-loop invariant before processing line `i`: the pending
metadata line (if any) is earlier than `i`, and the stack/roots satisfy the
range discipline with the next possible node start as bound. -/
def stateInv (i : Nat) (st : PState) : Prop :=
  (∀ pl, st.pmLine = some pl → pl < i) ∧
  stackOk st.roots (st.pmLine.getD i) st.stack = true

theorem stepLine_inv (i : Nat) (raw : Str) (st : PState) (h : stateInv i st) :
    stateInv (i + 1) (stepLine i raw st) := by
  obtain ⟨hpm, hstk⟩ := h
  have hbound : st.pmLine.getD i ≤ i := by
    cases hq : st.pmLine with
    | none => simp
    | some pl => simpa using Nat.le_of_lt (hpm pl hq)
  cases hm : metaCaptureP (trimL (trimEndL raw)) with
  | some json =>
    have hstep : stepLine i raw st =
        { st with pm := (match parseMetadataP json with
            | some m => some m
            | none => st.pm), pmLine := some i } := by
      unfold stepLine
      simp only [hm]
    rw [hstep]
    constructor
    · intro pl hpl
      have h3 : some i = some pl := hpl
      have := Option.some.inj h3
      omega
    · exact stackOk_mono hbound hstk
  | none =>
    cases hh : parseHeadingMd (trimEndL raw) with
    | none =>
      by_cases ht : trimL (trimEndL raw) = []
      · have hstep : stepLine i raw st = st := by
          unfold stepLine
          simp only [hm, hh]
          rw [if_pos ht]
        rw [hstep]
        refine ⟨fun pl hpl => Nat.lt_succ_of_lt (hpm pl hpl), ?_⟩
        refine stackOk_mono ?_ hstk
        cases hq : st.pmLine with
        | none => simp
        | some pl => simp
      · have hstep : stepLine i raw st = { st with pm := none, pmLine := none } := by
          unfold stepLine
          simp only [hm, hh]
          rw [if_neg ht]
        rw [hstep]
        refine ⟨fun pl hpl => Option.noConfusion hpl, ?_⟩
        exact stackOk_mono (Nat.le_succ_of_le hbound) hstk
    | some p =>
      obtain ⟨level, titleRaw⟩ := p
      by_cases htl : trimL titleRaw = []
      · have hstep : stepLine i raw st = st := by
          unfold stepLine
          simp only [hm, hh]
          rw [if_pos htl]
        rw [hstep]
        refine ⟨fun pl hpl => Nat.lt_succ_of_lt (hpm pl hpl), ?_⟩
        refine stackOk_mono ?_ hstk
        cases hq : st.pmLine with
        | none => simp
        | some pl => simp
      · have hstep : stepLine i raw st =
            { roots := (popGE level (st.pmLine.getD i) st.stack st.roots).2,
              stack := ⟨level, trimL titleRaw, st.pm, st.pmLine.getD i, []⟩ ::
                (popGE level (st.pmLine.getD i) st.stack st.roots).1,
              pm := none, pmLine := none } := by
          unfold stepLine
          simp only [hm, hh]
          rw [if_neg htl]
        rw [hstep]
        refine ⟨fun pl hpl => Option.noConfusion hpl, ?_⟩
        show stackOk (popGE level (st.pmLine.getD i) st.stack st.roots).2 (i + 1)
          (⟨level, trimL titleRaw, st.pm, st.pmLine.getD i, []⟩ ::
            (popGE level (st.pmLine.getD i) st.stack st.roots).1) = true
        simp only [stackOk, Bool.and_eq_true, decide_eq_true_eq]
        refine ⟨⟨⟨?_, ?_⟩, ?_⟩, ?_⟩
        · show st.pmLine.getD i < i + 1
          omega
        · rfl
        · rfl
        · exact popGEF_ok level _ _ st.stack st.roots rfl hstk

theorem runLines_inv : ∀ (lines : List Str) (i : Nat) (st : PState),
    stateInv i st → stateInv (i + lines.length) (runLines i lines st) := by
  intro lines
  induction lines with
  | nil => intro i st h; simpa [runLines] using h
  | cons l rest ih =>
    intro i st h
    rw [runLines]
    have h2 := ih (i + 1) (stepLine i l st) (stepLine_inv i l st h)
    have harith : i + 1 + rest.length = i + (l :: rest).length := by
      simp
      omega
    rwa [harith] at h2

theorem splitLines_ne_nil (s : Str) : splitLines s ≠ [] := by
  induction s using splitLines.induct with
  | case1 => decide
  | case2 rest ih => simp [splitLines]
  | case3 rest ih => simp [splitLines]
  | case4 c rest h1 h2 hsp ih => rw [splitLines.eq_4 c rest h1 h2, hsp]; simp
  | case5 c rest h1 h2 l ls hsp ih => rw [splitLines.eq_4 c rest h1 h2, hsp]; simp

theorem parse_forest_ok (text : Str) :
    secWfL (parseAsciiDocSectionsP text) = true ∧
    chainB (parseAsciiDocSectionsP text) = true := by
  have hinit : stateInv 0 ⟨[], [], none, none⟩ := by
    refine ⟨fun pl hpl => Option.noConfusion hpl, ?_⟩
    decide
  have hfin := runLines_inv (splitLines text) 0 ⟨[], [], none, none⟩ hinit
  obtain ⟨hpmf, hstkf⟩ := hfin
  have hLpos : 1 ≤ (splitLines text).length := by
    cases hsl : splitLines text with
    | nil => exact absurd hsl (splitLines_ne_nil text)
    | cons a as => simp [hsl]
  have hble : (runLines 0 (splitLines text) ⟨[], [], none, none⟩).pmLine.getD
      (0 + (splitLines text).length) ≤ (splitLines text).length := by
    cases hq : (runLines 0 (splitLines text) ⟨[], [], none, none⟩).pmLine with
    | none => simp
    | some pl =>
      have := hpmf pl hq
      simp only [hq, Option.getD_some]
      omega
  have hstk2 : stackOk (runLines 0 (splitLines text) ⟨[], [], none, none⟩).roots
      (((splitLines text).length - 1) + 1)
      (runLines 0 (splitLines text) ⟨[], [], none, none⟩).stack = true := by
    refine stackOk_mono ?_ hstkf
    omega
  have hres := closeAllF_ok ((splitLines text).length - 1) _ _ _ rfl hstk2
  constructor
  · show secWfL (closeAll ((splitLines text).length - 1)
      (runLines 0 (splitLines text) ⟨[], [], none, none⟩).stack
      (runLines 0 (splitLines text) ⟨[], [], none, none⟩).roots) = true
    exact hres.1
  · show chainB (closeAll ((splitLines text).length - 1)
      (runLines 0 (splitLines text) ⟨[], [], none, none⟩).stack
      (runLines 0 (splitLines text) ⟨[], [], none, none⟩).roots) = true
    exact chainB_of_rootsOk hres.2

theorem secWf_le {c : Sec} (h : secWf c = true) : c.startLine ≤ c.endLine := by
  cases c with
  | mk lvl t md sL eL cs =>
    simp only [secWf, Bool.and_eq_true, decide_eq_true_eq] at h
    exact h.1.1

theorem secWf_children {a c : Sec} (ha : secWf a = true) (hc : c ∈ a.children) :
    secWf c = true ∧ a.startLine ≤ c.startLine ∧ c.endLine ≤ a.endLine := by
  cases a with
  | mk lvl t md sL eL cs =>
    simp only [secWf, Bool.and_eq_true, decide_eq_true_eq] at ha
    have h1 := kidsOk_mem ha.1.2 c (by simpa using hc)
    have h2 := secWfL_mem ha.2 c (by simpa using hc)
    exact ⟨h2, h1⟩

theorem desc_bounds : ∀ {b a : Sec}, Desc b a → secWf a = true →
    secWf b = true ∧ a.startLine ≤ b.startLine ∧ b.endLine ≤ a.endLine := by
  intro b a hd
  induction hd with
  | refl => intro h; exact ⟨h, le_refl _, le_refl _⟩
  | step hbc hmem ih =>
    intro ha
    obtain ⟨hcw, hc1, hc2⟩ := secWf_children ha hmem
    obtain ⟨hbw, hb1, hb2⟩ := ih hcw
    exact ⟨hbw, le_trans hc1 hb1, le_trans hb2 hc2⟩

theorem kidsOk_chain {sL eL : Nat} : ∀ {cs : List Sec},
    kidsOk sL eL cs = true → chainB cs = true := by
  intro cs
  induction cs with
  | nil => intro _; rfl
  | cons x rest ih =>
    intro h
    cases rest with
    | nil => rfl
    | cons d ds =>
      simp only [kidsOk, Bool.and_eq_true, decide_eq_true_eq] at h
      simp only [chainB, Bool.and_eq_true, decide_eq_true_eq]
      exact ⟨h.1.2, ih h.2⟩

theorem chainB_tail {x : Sec} {rest : List Sec} (h : chainB (x :: rest) = true) :
    chainB rest = true := by
  cases rest with
  | nil => rfl
  | cons d ds =>
    simp only [chainB, Bool.and_eq_true] at h
    exact h.2

theorem chainB_head : ∀ {rest : List Sec} (x : Sec), chainB (x :: rest) = true →
    secWfL rest = true → ∀ y ∈ rest, x.endLine < y.startLine := by
  intro rest
  induction rest with
  | nil => intro x _ _ y hy; exact absurd hy (List.not_mem_nil y)
  | cons d ds ih =>
    intro x h hw y hy
    simp only [chainB, Bool.and_eq_true, decide_eq_true_eq] at h
    simp only [secWfL, Bool.and_eq_true] at hw
    rcases List.mem_cons.mp hy with rfl | hy2
    · exact h.1
    · have hd := ih d (by
        simpa only [chainB, Bool.and_eq_true] using h.2) hw.2 y hy2
      have hle := secWf_le hw.1
      omega

theorem chainB_pairwise : ∀ {cs : List Sec}, chainB cs = true → secWfL cs = true →
    List.Pairwise (fun x y => x.endLine < y.startLine) cs := by
  intro cs
  induction cs with
  | nil => intro _ _; exact List.Pairwise.nil
  | cons x rest ih =>
    intro h hw
    simp only [secWfL, Bool.and_eq_true] at hw
    exact List.Pairwise.cons (chainB_head x h hw.2) (ih (chainB_tail h) hw.2)

/-- The claim C9 states the line-range invariant of the parsed section
forest: the whole forest is range-well-formed, top-level sections are
pairwise disjoint and ordered by start line, every ancestor's range
contains every descendant's range, and every node's children are pairwise
disjoint and ordered by start line. -/
theorem c9_section_ranges (text : Str) :
    secWfL (parseAsciiDocSectionsP text) = true ∧
    List.Pairwise (fun x y => x.endLine < y.startLine) (parseAsciiDocSectionsP text) ∧
    (∀ R ∈ parseAsciiDocSectionsP text, ∀ A, Desc A R → ∀ B, Desc B A →
      A.startLine ≤ B.startLine ∧ B.endLine ≤ A.endLine) ∧
    (∀ R ∈ parseAsciiDocSectionsP text, ∀ A, Desc A R →
      List.Pairwise (fun x y => x.endLine < y.startLine) A.children) := by
  obtain ⟨hwf, hch⟩ := parse_forest_ok text
  refine ⟨hwf, chainB_pairwise hch hwf, ?_, ?_⟩
  · intro R hR A hA B hB
    have hRwf := secWfL_mem hwf R hR
    have hAwf := (desc_bounds hA hRwf).1
    exact (desc_bounds hB hAwf).2
  · intro R hR A hA
    have hRwf := secWfL_mem hwf R hR
    have hAwf := (desc_bounds hA hRwf).1
    cases A with
    | mk lvl t md sL eL cs =>
      simp only [secWf, Bool.and_eq_true, decide_eq_true_eq] at hAwf
      show List.Pairwise (fun x y => x.endLine < y.startLine) cs
      exact chainB_pairwise (kidsOk_chain hAwf.1.2) hAwf.2

end DTC
